import Mathlib

/-!
Shallow embedding of the voting-simulation backend (`src/main.py`, `src/schemas.py`).

The five MongoDB collections are modelled as lists of records inside a single `DB`
state; `find_one` is `List.find?` (Mongo natural order = insertion order),
`update_one` updates the first matching record (`updateFirst`), `insert_one`
appends and assigns a fresh id from a counter.  Every HTTP handler becomes a pure
function `DB → args → Except ApiError response × DB`; in the source every
`HTTPException` is raised before any write of the handler executes, so an error
result is always paired with the unchanged state.

Times: the source reads `time.time()` several times inside one handler; a single
`now : Nat` parameter per call stands for all of them (sequential execution).
The SHA-256 digest is kept abstract as a parameter `sha : List Nat → String`:
the handlers only ever compare digests for equality.

`base64.b64decode` (non-strict mode, as called at `main.py:57` on a `str`
payload) is modelled in two stages, as in CPython: the payload is first
ASCII-encoded (failing on any character above U+007F), then fed to
`binascii.a2b_base64`: characters outside the base64 alphabet are discarded,
`'='` terminates a quad once two data characters of the quad are present, and
a dangling quad at the end is an error.
-/

namespace VotingSim

/-- Error taxonomy of the handlers (each is an `HTTPException` in the source).
`InternalError` stands for an unhandled (non-HTTPException) exception escaping a
handler, which FastAPI surfaces as HTTP 500. -/
inductive ApiError where
  | NotFound
  | AlreadyVoted
  | IncompleteVerification
  | CandidateNotFound
  | InvalidCredential
  | Expired
  | InvalidInput
  | FaceMismatch
  | InternalError
deriving DecidableEq, Repr

/-- `voter` collection document (`schemas.Voter`, seeded in `_ensure_seed_data`). -/
structure Voter where
  id : Nat
  aadhaar : String
  name : String
  phone : String
  face_hash : Option String
  has_voted : Bool
deriving DecidableEq, Repr

/-- `candidate` collection document (`schemas.Candidate`).  The Mongo `_id` is an
ObjectId; we carry its string form (`str(c["_id"])`), which is how the source
compares candidate ids everywhere. -/
structure Candidate where
  id : String
  name : String
  party : Option String
deriving DecidableEq, Repr

/-- `otprequest` collection document (`schemas.OtpRequest` plus the `created_at`
stamp added at insertion, `main.py:143`). -/
structure OtpRequest where
  id : Nat
  aadhaar : String
  otp : String
  expires_at : Nat
  verified : Bool
  created_at : Nat
deriving DecidableEq, Repr

/-- `verification` collection document (`schemas.Verification`). -/
structure Verification where
  id : Nat
  aadhaar : String
  otp_verified_at : Option Nat
  face_verified_at : Option Nat
deriving DecidableEq, Repr

/-- `vote` collection document (`schemas.Vote` plus the `created_at` stamp that
`create_document` adds; the assigned `_id` is never read back, so it is omitted). -/
structure Vote where
  aadhaar : String
  candidate_id : String
  created_at : Nat
deriving DecidableEq, Repr

/-- The whole store.  `nextId` is the source of fresh numeric ids for inserted
voter/otprequest/verification documents. -/
structure DB where
  voters : List Voter
  candidates : List Candidate
  otprequests : List OtpRequest
  verifications : List Verification
  votes : List Vote
  nextId : Nat
deriving DecidableEq, Repr

/-- Mongo `update_one(filter, patch)`: patch the first matching document, leave
the rest untouched. -/
def updateFirst (p : α → Bool) (f : α → α) : List α → List α
  | [] => []
  | x :: xs => if p x then f x :: xs else x :: updateFirst p f xs

/-- `find_one({"aadhaar": aadhaar})` on the `voter` collection. -/
def findVoter (st : DB) (aadhaar : String) : Option Voter :=
  st.voters.find? (fun v => v.aadhaar == aadhaar)

/-- `find_one({"aadhaar": aadhaar})` on the `verification` collection. -/
def findVerification (st : DB) (aadhaar : String) : Option Verification :=
  st.verifications.find? (fun v => v.aadhaar == aadhaar)

/-- Python truthiness of an optional timestamp, as used by
`ver.get("otp_verified_at")` / `ver.get("face_verified_at")` in `cast_vote`
(`main.py:228`): `None` and `0` are falsy. -/
def truthyTime : Option Nat → Bool
  | none => false
  | some n => n != 0

/-- Response of `send_otp` (`main.py:149`), keeping the claim-relevant fields. -/
structure SendOtpResp where
  otp_demo : String
  masked : String
  expires_at : Nat
  voter_name : String
deriving DecidableEq, Repr

/-- `POST /auth/send-otp` (`main.py:128-149`). -/
def send_otp (st : DB) (aadhaar : String) (now : Nat) :
    Except ApiError SendOtpResp × DB :=
  match findVoter st aadhaar with
  | none => (.error .NotFound, st)
  | some voter =>
    let otp := toString (now % 900000 + 100000)
    let expires_at := now + 300
    let req : OtpRequest :=
      { id := st.nextId, aadhaar := aadhaar, otp := otp, expires_at := expires_at,
        verified := false, created_at := now }
    let st' := { st with otprequests := st.otprequests ++ [req], nextId := st.nextId + 1 }
    (.ok { otp_demo := otp, masked := otp.take 2 ++ "****", expires_at := expires_at,
           voter_name := voter.name }, st')

/-- One step of scanning for the newest document under `sort=[("created_at", -1)]`:
keep whichever of the two candidates has the larger `created_at` (a tie goes to
the later-scanned document; Mongo leaves the tie order unspecified). -/
def pickNewer (best : Option OtpRequest) (r : OtpRequest) : Option OtpRequest :=
  match best with
  | none => some r
  | some b => if b.created_at ≤ r.created_at then some r else some b

/-- `find_one({"aadhaar": ..., "otp": ...}, sort=[("created_at", -1)])`
(`main.py:154-157`): among the documents matching both fields, one with the
largest `created_at`. -/
def newestMatch (reqs : List OtpRequest) (aadhaar code : String) : Option OtpRequest :=
  (reqs.filter (fun r => r.aadhaar == aadhaar && r.otp == code)).foldl pickNewer none

/-- The `verification` upsert done by `verify_otp` on success (`main.py:166-170`):
update the existing document's `otp_verified_at` in place, or insert a fresh
document with `face_verified_at = None`. -/
def upsertOtpVerified (st : DB) (aadhaar : String) (now : Nat) : DB :=
  match findVerification st aadhaar with
  | some ver =>
    let vs := updateFirst (fun v => v.id == ver.id)
      (fun v => { v with otp_verified_at := some now }) st.verifications
    { st with verifications := vs }
  | none =>
    { st with
      verifications := st.verifications ++
        [{ id := st.nextId, aadhaar := aadhaar, otp_verified_at := some now,
           face_verified_at := none }],
      nextId := st.nextId + 1 }

/-- `POST /auth/verify-otp` (`main.py:152-172`). -/
def verify_otp (st : DB) (aadhaar code : String) (now : Nat) :
    Except ApiError Unit × DB :=
  match newestMatch st.otprequests aadhaar code with
  | none => (.error .InvalidCredential, st)
  | some req =>
    if req.expires_at < now then (.error .Expired, st)
    else
      let rs := updateFirst (fun r => r.id == req.id)
        (fun r => { r with verified := true }) st.otprequests
      let st1 := { st with otprequests := rs }
      (.ok (), upsertOtpVerified st1 aadhaar now)

/-- Value of a character in the standard base64 alphabet, `none` for every
other character (`binascii`'s `table_a2b_base64`; `'='` is handled separately). -/
def b64Val (c : Char) : Option Nat :=
  if 'A' ≤ c ∧ c ≤ 'Z' then some (c.toNat - 65)
  else if 'a' ≤ c ∧ c ≤ 'z' then some (c.toNat - 97 + 26)
  else if '0' ≤ c ∧ c ≤ '9' then some (c.toNat - 48 + 52)
  else if c = '+' then some 62
  else if c = '/' then some 63
  else none

/-- Main loop of CPython's `binascii.a2b_base64` in non-strict mode (the mode
`base64.b64decode` uses at `main.py:57`): state is the position inside the
current quad, the pending bits, the running pad count, and the bytes emitted so
far (reversed).  Characters outside the alphabet are skipped; `'='` completes a
quad once at least two data characters are present; a dangling quad at the end
of input is an error. -/
def a2bAux : List Char → Nat → Nat → Nat → List Nat → Option (List Nat)
  | [], quadPos, _, _, out => if quadPos = 0 then some out.reverse else none
  | c :: rest, quadPos, leftchar, pads, out =>
    if c = '=' then
      if 2 ≤ quadPos then
        if 4 ≤ quadPos + (pads + 1) then some out.reverse
        else a2bAux rest quadPos leftchar (pads + 1) out
      else a2bAux rest quadPos leftchar pads out
    else
      match b64Val c with
      | none => a2bAux rest quadPos leftchar pads out
      | some v =>
        match quadPos with
        | 0 => a2bAux rest 1 v 0 out
        | 1 => a2bAux rest 2 (v % 16) 0 ((leftchar * 4 + v / 16) :: out)
        | 2 => a2bAux rest 3 (v % 4) 0 ((leftchar * 16 + v / 4) :: out)
        | _ => a2bAux rest 0 0 0 ((leftchar * 64 + v) :: out)

/-- `base64.b64decode(s)` on a Python `str` (non-strict): the payload is
first ASCII-encoded — `ValueError` on any character above U+007F — and only
then decoded by `binascii.a2b_base64`; `none` stands for either exception. -/
def b64decode (cs : List Char) : Option (List Nat) :=
  if cs.all (fun c => c.toNat ≤ 127) then a2bAux cs 0 0 0 [] else none

/-- The data-URI stripping of `_sha256_of_base64_image` (`main.py:54-55`):
`image_base64.split(",", 1)[1]` when a comma is present. -/
def stripDataUri (cs : List Char) : List Char :=
  if cs.contains ',' then (cs.dropWhile (fun c => c ≠ ',')).tail else cs

/-- `_sha256_of_base64_image` (`main.py:52-60`), with the SHA-256 digest left
abstract as `sha`. -/
def sha256_of_base64_image (sha : List Nat → String) (image_base64 : String) :
    Except ApiError String :=
  match b64decode (stripDataUri image_base64.toList) with
  | none => .error .InvalidInput
  | some bytes => .ok (sha bytes)

/-- The `verification` upsert done by `verify_face` on success
(`main.py:195-199`): symmetric to `upsertOtpVerified`. -/
def upsertFaceVerified (st : DB) (aadhaar : String) (now : Nat) : DB :=
  match findVerification st aadhaar with
  | some ver =>
    let vs := updateFirst (fun v => v.id == ver.id)
      (fun v => { v with face_verified_at := some now }) st.verifications
    { st with verifications := vs }
  | none =>
    { st with
      verifications := st.verifications ++
        [{ id := st.nextId, aadhaar := aadhaar, otp_verified_at := none,
           face_verified_at := some now }],
      nextId := st.nextId + 1 }

/-- `POST /auth/verify-face` (`main.py:175-201`).  The `Bool` payload of a
success is the `enrolled` flag of the response; a success is exactly
`verified = True` in the source (on `verified = False` the handler raises
before reaching the upsert). -/
def verify_face (sha : List Nat → String) (st : DB) (aadhaar image_base64 : String)
    (now : Nat) : Except ApiError Bool × DB :=
  match findVoter st aadhaar with
  | none => (.error .NotFound, st)
  | some voter =>
    match sha256_of_base64_image sha image_base64 with
    | .error e => (.error e, st)
    | .ok face_hash =>
      match voter.face_hash with
      | none =>
        let vs := updateFirst (fun v => v.id == voter.id)
          (fun v => { v with face_hash := some face_hash }) st.voters
        let st1 := { st with voters := vs }
        (.ok true, upsertFaceVerified st1 aadhaar now)
      | some stored =>
        if stored == face_hash then (.ok false, upsertFaceVerified st aadhaar now)
        else (.error .FaceMismatch, st)

/-- `bson.ObjectId(candidate_id)` inside the `try` of `cast_vote`
(`main.py:235-238`): succeeds exactly on a 24-character hex string.  Caveat:
ObjectId compares case-insensitively, so an upper-case hex spelling of an
existing id would match in the source but yields CandidateNotFound in this
model, which keeps the parsed id verbatim; every id the system itself stores
and compares is already the lower-case `str(ObjectId)` form, and no theorem
below depends on which spellings succeed. -/
def isHexChar (c : Char) : Bool :=
  c.isDigit || ('a' ≤ c && c ≤ 'f') || ('A' ≤ c && c ≤ 'F')

/-- Parse a candidate-id string as an ObjectId, `none` when `ObjectId(...)` raises. -/
def objectIdOfString (s : String) : Option String :=
  if s.length == 24 && s.toList.all isHexChar then some s else none

/-- The verification gate of `cast_vote` (`main.py:227-229`):
`not ver or not ver.get("otp_verified_at") or not ver.get("face_verified_at")`. -/
def verificationComplete (st : DB) (aadhaar : String) : Bool :=
  match findVerification st aadhaar with
  | none => false
  | some v => truthyTime v.otp_verified_at && truthyTime v.face_verified_at

/-- Modelled from the spec: `database.create_document` (the `database` module of
the repository is not under `src/`; the spec's Store contract gives
`Store.insert(kind, record) → assigned id`).  Inserting a `vote` document
appends one new record, stamping `created_at` (`main.py:243`). -/
def create_document_vote (st : DB) (aadhaar candidate_id : String) (now : Nat) : DB :=
  { st with votes := st.votes ++
      [{ aadhaar := aadhaar, candidate_id := candidate_id, created_at := now }] }

/-- `POST /vote` (`main.py:219-246`) as it actually executes: the statement at
`main.py:232` (`cand = _collection("candidate").find_one({"_id": {"$eq":
..codec_options.document_class}})`) runs after the verification gate and raises
an unhandled exception under any real store (the expression steps outside the
spec's Store contract; with a pymongo store it attempts to BSON-encode the class
object `dict`), so control never reaches the candidate check. -/
def cast_vote_strict (st : DB) (aadhaar candidate_id : String) (now : Nat) :
    Except ApiError Unit × DB :=
  match findVoter st aadhaar with
  | none => (.error .NotFound, st)
  | some voter =>
    if voter.has_voted then (.error .AlreadyVoted, st)
    else
      if !verificationComplete st aadhaar then (.error .IncompleteVerification, st)
      else (.error .InternalError, st)

/-- `POST /vote` (`main.py:219-246`) as intended: the source's own comment at
`main.py:233` ("We can't query like that; simply check by ObjectId if valid")
documents that the stray query at `main.py:232` is a slip, so this definition
follows the remaining lines: look the candidate up by ObjectId (any exception
means no candidate), insert the `vote` document, then flip `has_voted`.
The always-raising execution path is `cast_vote_strict` above. -/
def cast_vote (st : DB) (aadhaar candidate_id : String) (now : Nat) :
    Except ApiError Unit × DB :=
  match findVoter st aadhaar with
  | none => (.error .NotFound, st)
  | some voter =>
    if voter.has_voted then (.error .AlreadyVoted, st)
    else
      if !verificationComplete st aadhaar then (.error .IncompleteVerification, st)
      else
        let cand : Option Candidate :=
          match objectIdOfString candidate_id with
          | none => none
          | some oid => st.candidates.find? (fun c => c.id == oid)
        match cand with
        | none => (.error .CandidateNotFound, st)
        | some _ =>
          let st1 := create_document_vote st aadhaar candidate_id now
          let vs := updateFirst (fun v => v.id == voter.id)
            (fun v => { v with has_voted := true }) st1.voters
          let st2 := { st1 with voters := vs }
          (.ok (), st2)

/-- Entry of the `GET /results` response (`main.py:269`). -/
structure ResultEntry where
  candidate_id : String
  name : String
  party : Option String
  votes : Nat
deriving DecidableEq, Repr

/-- The `$group`-by-`candidate_id` aggregation (`main.py:255-258`): per-key
counts.  Mongo leaves the output ORDER of `$group` unspecified; this embedding
keys the groups in order of first occurrence in the vote log as a deterministic
stand-in, and no theorem below relies on that choice: every property proved
about `results` is invariant under permuting the aggregation output. -/
def aggregateVotes (votes : List Vote) : List (String × Nat) :=
  votes.foldl
    (fun acc v =>
      if acc.any (fun p => p.1 == v.candidate_id) then
        acc.map (fun p => if p.1 == v.candidate_id then (p.1, p.2 + 1) else p)
      else acc ++ [(v.candidate_id, 1)]) []

/-- One insertion step of a stable descending sort on `votes`: under the
`foldr` below the element being inserted comes from earlier in the input, so it
is placed before every element with `votes` not larger than its own, matching
the stability of Python's `list.sort(key=..., reverse=True)` at `main.py:278`. -/
def insertDesc (x : ResultEntry) : List ResultEntry → List ResultEntry
  | [] => [x]
  | y :: ys => if x.votes < y.votes then y :: insertDesc x ys else x :: y :: ys

/-- Stable sort of the result entries, descending by `votes`. -/
def sortVotesDesc (l : List ResultEntry) : List ResultEntry :=
  l.foldr insertDesc []

/-- The entry built for one aggregation group (`main.py:266-269`): candidate
info joined by id, `{name: "Unknown", party: None}` when the `candidate_id`
resolves to no candidate. -/
def joinEntry (st : DB) (p : String × Nat) : ResultEntry :=
  match st.candidates.find? (fun c => c.id == p.1) with
  | some c => { candidate_id := p.1, name := c.name, party := c.party, votes := p.2 }
  | none => { candidate_id := p.1, name := "Unknown", party := none, votes := p.2 }

/-- The zero-vote entry for a candidate (`main.py:275`). -/
def zeroEntry (c : Candidate) : ResultEntry :=
  { candidate_id := c.id, name := c.name, party := c.party, votes := 0 }

/-- The first loop of `results` (`main.py:265-269`): one entry per aggregation
group. -/
def knownEntries (st : DB) : List ResultEntry :=
  (aggregateVotes st.votes).map (joinEntry st)

/-- The second loop of `results` (`main.py:271-275`): zero-vote entries for the
candidates whose id is not among the aggregated `candidate_id`s. -/
def zeroEntries (st : DB) : List ResultEntry :=
  (st.candidates.filter
      (fun c => !((aggregateVotes st.votes).map Prod.fst).contains c.id)).map
    zeroEntry

/-- `GET /results` (`main.py:249-279`): aggregate the votes, join candidate
info (placeholder for unknown ids), append zero-vote candidates, sort. -/
def results (st : DB) : List ResultEntry :=
  sortVotesDesc (knownEntries st ++ zeroEntries st)

/-- The mutating operations of the API, for stating state-machine invariants.
`castVoteStrict` is the faithful execution of `POST /vote` (it never reaches the
write), `castVote` the intended one; both are included so the invariants cover
either reading of the source. -/
inductive Op where
  | sendOtp (aadhaar : String) (now : Nat)
  | verifyOtp (aadhaar code : String) (now : Nat)
  | verifyFace (aadhaar image_base64 : String) (now : Nat)
  | castVote (aadhaar candidate_id : String) (now : Nat)
  | castVoteStrict (aadhaar candidate_id : String) (now : Nat)
deriving DecidableEq, Repr

/-- State reached after one API call (an error leaves the store unchanged). -/
def step (sha : List Nat → String) (st : DB) : Op → DB
  | .sendOtp a now => (send_otp st a now).2
  | .verifyOtp a c now => (verify_otp st a c now).2
  | .verifyFace a img now => (verify_face sha st a img now).2
  | .castVote a cid now => (cast_vote st a cid now).2
  | .castVoteStrict a cid now => (cast_vote_strict st a cid now).2

/-- Projection: `has_voted` of the voter a lookup by `aadhaar` finds (`false`
when there is none). -/
def voterHasVoted (st : DB) (aadhaar : String) : Bool :=
  match findVoter st aadhaar with
  | some v => v.has_voted
  | none => false

/-- Number of `vote` documents recorded for an aadhaar. -/
def votesFor (st : DB) (aadhaar : String) : Nat :=
  (st.votes.filter (fun v => v.aadhaar == aadhaar)).length

/-! ### Generic lemmas about `updateFirst` and `List.find?` -/

section UpdateFirst

variable {α : Type _}

theorem updateFirst_length (p : α → Bool) (f : α → α) (l : List α) :
    (updateFirst p f l).length = l.length := by
  induction l with
  | nil => rfl
  | cons x xs ih =>
    simp only [updateFirst]
    by_cases hx : p x <;> simp [hx, ih]

/-- If no element the patch can touch satisfies the search predicate (before or
after patching), `find?` is unaffected by the patch. -/
theorem find?_updateFirst_of_none (l : List α) (p q : α → Bool) (f : α → α)
    (h : ∀ x ∈ l, p x = true → q x = false ∧ q (f x) = false) :
    (updateFirst p f l).find? q = l.find? q := by
  induction l with
  | nil => rfl
  | cons x xs ih =>
    simp only [updateFirst]
    cases hx : p x with
    | true =>
      obtain ⟨hq, hqf⟩ := h x (List.mem_cons_self x xs) hx
      simp only [if_true]
      rw [List.find?_cons_of_neg _ (by simp [hqf]), List.find?_cons_of_neg _ (by simp [hq])]
    | false =>
      simp only [Bool.false_eq_true, if_false]
      cases hq : q x with
      | true => rw [List.find?_cons_of_pos _ hq, List.find?_cons_of_pos _ hq]
      | false =>
        rw [List.find?_cons_of_neg _ (by simp [hq]), List.find?_cons_of_neg _ (by simp [hq])]
        exact ih (fun y hy hpy => h y (List.mem_cons_of_mem x hy) hpy)

/-- If `find? q` returns `v`, the patch targets exactly `v`, and the patched
`v` still satisfies `q`, then after the patch `find? q` returns `f v`. -/
theorem find?_updateFirst_of_unique (l : List α) (p q : α → Bool) (f : α → α) (v : α)
    (hfind : l.find? q = some v)
    (hp : ∀ x ∈ l, (p x = true ↔ x = v))
    (hqfv : q (f v) = true) :
    (updateFirst p f l).find? q = some (f v) := by
  induction l with
  | nil => simp at hfind
  | cons x xs ih =>
    cases hq : q x with
    | true =>
      have hv : x = v := by
        rw [List.find?_cons_of_pos _ hq] at hfind
        exact Option.some.inj hfind
      subst hv
      have hpx : p x = true := (hp x (List.mem_cons_self _ _)).mpr rfl
      simp only [updateFirst, hpx, if_true]
      rw [List.find?_cons_of_pos _ hqfv]
    | false =>
      rw [List.find?_cons_of_neg _ (by simp [hq])] at hfind
      have hxv : x ≠ v := by
        intro hxv
        have hqv := List.find?_some hfind
        rw [← hxv] at hqv
        simp [hq] at hqv
      have hpx : p x = false := by
        cases hpx : p x with
        | false => rfl
        | true => exact absurd ((hp x (List.mem_cons_self _ _)).mp hpx) hxv
      simp only [updateFirst, hpx, Bool.false_eq_true, if_false]
      rw [List.find?_cons_of_neg _ (by simp [hq])]
      exact ih hfind (fun y hy => hp y (List.mem_cons_of_mem x hy))

/-- With at most one patchable element (`Nodup` plus pointwise uniqueness of
the target predicate) `updateFirst` is a pointwise map. -/
theorem updateFirst_eq_map_of_unique (l : List α) (p : α → Bool) (f : α → α)
    (hnd : l.Nodup)
    (hu : ∀ x ∈ l, ∀ y ∈ l, p x = true → p y = true → x = y) :
    updateFirst p f l = l.map (fun x => if p x then f x else x) := by
  induction l with
  | nil => rfl
  | cons x xs ih =>
    simp only [updateFirst, List.map_cons]
    by_cases hx : p x
    · have hxs : ∀ y ∈ xs, p y = false := by
        intro y hy
        by_cases hpy : p y
        · have := hu x (List.mem_cons_self _ _) y (List.mem_cons_of_mem x hy) hx hpy
          exact absurd (this ▸ hy) (List.nodup_cons.mp hnd).1
        · simp [hpy]
      have hid : ∀ ys : List α, (∀ y ∈ ys, p y = false) →
          ys.map (fun z => if p z then f z else z) = ys := by
        intro ys
        induction ys with
        | nil => intro _; rfl
        | cons y ys ih2 =>
          intro h
          simp [h y (List.mem_cons_self _ _),
            ih2 (fun z hz => h z (List.mem_cons_of_mem _ hz))]
      simp [hx, hid xs hxs]
    · simp only [hx, if_false]
      exact congrArg (x :: ·)
        (ih (List.Nodup.of_cons hnd)
          (fun a ha b hb hpa hpb =>
            hu a (List.mem_cons_of_mem x ha) b (List.mem_cons_of_mem x hb) hpa hpb))

theorem mem_updateFirst_of_not_target (l : List α) (p : α → Bool) (f : α → α)
    (x : α) (hx : x ∈ l) (hpx : p x = false) : x ∈ updateFirst p f l := by
  induction l with
  | nil => simp at hx
  | cons y ys ih =>
    rcases List.mem_cons.mp hx with h | h
    · subst h
      simp [updateFirst, hpx]
    · simp only [updateFirst]
      cases hy : p y with
      | true => simp [List.mem_cons, h]
      | false =>
        simp only [Bool.false_eq_true, if_false, List.mem_cons]
        exact Or.inr (ih h)

theorem countP_updateFirst (l : List α) (p q : α → Bool) (f : α → α)
    (hq : ∀ x, q (f x) = q x) :
    (updateFirst p f l).countP q = l.countP q := by
  induction l with
  | nil => rfl
  | cons x xs ih =>
    simp only [updateFirst]
    by_cases hx : p x
    · simp [hx, List.countP_cons, hq]
    · simp [hx, List.countP_cons, ih]

theorem map_updateFirst (l : List α) (p : α → Bool) (f : α → α) {β : Type _}
    (g : α → β) (hg : ∀ x, g (f x) = g x) :
    (updateFirst p f l).map g = l.map g := by
  induction l with
  | nil => rfl
  | cons x xs ih =>
    simp only [updateFirst]
    by_cases hx : p x
    · simp [hx, hg]
    · simp [hx, ih]

theorem filter_map_of_pred_inv (l : List α) (g : α → α) (q : α → Bool)
    (h : ∀ x, q (g x) = q x) :
    (l.map g).filter q = (l.filter q).map g := by
  induction l with
  | nil => rfl
  | cons x xs ih =>
    simp only [List.map_cons, List.filter_cons, h x]
    by_cases hq : q x
    · simp [hq, ih]
    · simp [hq, ih]

end UpdateFirst

/-! ### Lemmas about `newestMatch` -/

theorem foldl_pickNewer_eq_none (l : List OtpRequest) (acc : Option OtpRequest) :
    l.foldl pickNewer acc = none ↔ (l = [] ∧ acc = none) := by
  induction l generalizing acc with
  | nil => simp
  | cons x xs ih =>
    simp only [List.foldl_cons, ih]
    constructor
    · rintro ⟨hxs, hpick⟩
      cases acc with
      | none => simp [pickNewer] at hpick
      | some b =>
        simp only [pickNewer] at hpick
        split at hpick <;> simp at hpick
    · rintro ⟨h, _⟩; simp at h

theorem foldl_pickNewer_mem (l : List OtpRequest) (acc : Option OtpRequest)
    (r : OtpRequest) (h : l.foldl pickNewer acc = some r) :
    acc = some r ∨ r ∈ l := by
  induction l generalizing acc with
  | nil => exact Or.inl h
  | cons x xs ih =>
    rcases ih (pickNewer acc x) h with hacc | hmem
    · cases acc with
      | none =>
        simp only [pickNewer] at hacc
        exact Or.inr (List.mem_cons.mpr (Or.inl (Option.some.inj hacc).symm))
      | some b =>
        simp only [pickNewer] at hacc
        split at hacc
        · exact Or.inr (List.mem_cons.mpr (Or.inl (Option.some.inj hacc).symm))
        · exact Or.inl hacc
    · exact Or.inr (List.mem_cons_of_mem x hmem)

theorem foldl_pickNewer_ge (l : List OtpRequest) (acc : Option OtpRequest)
    (r : OtpRequest) (h : l.foldl pickNewer acc = some r) :
    (∀ x ∈ l, x.created_at ≤ r.created_at)
    ∧ (∀ b, acc = some b → b.created_at ≤ r.created_at) := by
  induction l generalizing acc with
  | nil =>
    refine ⟨by simp, fun b hb => ?_⟩
    rw [hb] at h
    exact (Option.some.inj h) ▸ Nat.le_refl _
  | cons x xs ih =>
    obtain ⟨hxs, hacc⟩ := ih (pickNewer acc x) h
    have hx : x.created_at ≤ r.created_at := by
      cases acc with
      | none => exact hacc x rfl
      | some b =>
        simp only [pickNewer] at hacc
        by_cases hbx : b.created_at ≤ x.created_at
        · exact hacc x (by simp [hbx])
        · have hb := hacc b (by simp [hbx])
          exact Nat.le_trans (Nat.le_of_lt (Nat.lt_of_not_le hbx)) hb
    refine ⟨fun y hy => ?_, fun b hb => ?_⟩
    · rcases List.mem_cons.mp hy with hyx | hyxs
      · exact hyx ▸ hx
      · exact hxs y hyxs
    · subst hb
      simp only [pickNewer] at hacc
      by_cases hbx : b.created_at ≤ x.created_at
      · exact Nat.le_trans hbx hx
      · exact hacc b (by simp [hbx])

theorem newestMatch_eq_none_iff (reqs : List OtpRequest) (a c : String) :
    newestMatch reqs a c = none ↔ ∀ r ∈ reqs, ¬(r.aadhaar = a ∧ r.otp = c) := by
  unfold newestMatch
  rw [foldl_pickNewer_eq_none]
  simp [List.filter_eq_nil_iff]

theorem newestMatch_spec (reqs : List OtpRequest) (a c : String) (r : OtpRequest)
    (h : newestMatch reqs a c = some r) :
    r ∈ reqs ∧ r.aadhaar = a ∧ r.otp = c
    ∧ ∀ q ∈ reqs, q.aadhaar = a → q.otp = c → q.created_at ≤ r.created_at := by
  unfold newestMatch at h
  have hmem := foldl_pickNewer_mem _ _ _ h
  simp only [Option.some_ne_none] at hmem
  rcases hmem with hfalse | hmem
  · exact absurd hfalse (by simp)
  · have hmf := List.mem_filter.mp hmem
    obtain ⟨hzr, hpr⟩ := hmf
    have hr : r.aadhaar = a ∧ r.otp = c := by
      simpa using hpr
    refine ⟨hzr, hr.1, hr.2, fun q hq hqa hqo => ?_⟩
    have hqf : q ∈ reqs.filter (fun x => x.aadhaar == a && x.otp == c) :=
      List.mem_filter.mpr ⟨hq, by simp [hqa, hqo]⟩
    exact (foldl_pickNewer_ge _ _ _ h).1 q hqf

theorem foldl_pickNewer_map (g : OtpRequest → OtpRequest)
    (hg : ∀ r, (g r).created_at = r.created_at) (l : List OtpRequest) :
    ∀ acc : Option OtpRequest,
      (l.map g).foldl pickNewer (acc.map g) = (l.foldl pickNewer acc).map g := by
  induction l with
  | nil => intro acc; rfl
  | cons x xs ih =>
    intro acc
    have hstep : pickNewer (acc.map g) (g x) = (pickNewer acc x).map g := by
      cases acc with
      | none => rfl
      | some b =>
        show pickNewer (some (g b)) (g x) = (pickNewer (some b) x).map g
        simp only [pickNewer, hg]
        by_cases hbx : b.created_at ≤ x.created_at <;> simp [hbx]
    simp only [List.map_cons, List.foldl_cons, hstep, ih]

theorem newestMatch_map (g : OtpRequest → OtpRequest)
    (hgc : ∀ r, (g r).created_at = r.created_at)
    (hga : ∀ r, (g r).aadhaar = r.aadhaar)
    (hgo : ∀ r, (g r).otp = r.otp)
    (reqs : List OtpRequest) (a c : String) :
    newestMatch (reqs.map g) a c = (newestMatch reqs a c).map g := by
  unfold newestMatch
  rw [filter_map_of_pred_inv _ _ _ (fun x => by simp [hga, hgo])]
  exact foldl_pickNewer_map g hgc _ none

/-! ### Length and digits of `Nat.repr` (for the 6-digit OTP property) -/

theorem toDigitsCore_length_mono (f : Nat) :
    ∀ (n : Nat) (l : List Char), l.length ≤ (Nat.toDigitsCore 10 f n l).length := by
  induction f with
  | zero => intro n l; exact Nat.le_refl _
  | succ f ih =>
    intro n l
    simp only [Nat.toDigitsCore]
    split
    · simp
    · exact Nat.le_trans (by simp) (ih (n / 10) (Nat.digitChar (n % 10) :: l))

theorem toDigitsCore_length_lower (f : Nat) :
    ∀ (e n : Nat) (l : List Char), 10 ^ e ≤ n → e < f →
      l.length + e + 1 ≤ (Nat.toDigitsCore 10 f n l).length := by
  induction f with
  | zero => intro e n l _ he; omega
  | succ f ih =>
    intro e n l hn he
    cases e with
    | zero =>
      simp only [Nat.toDigitsCore]
      split
      · simp
      · have := toDigitsCore_length_mono f (n / 10) (Nat.digitChar (n % 10) :: l)
        simp only [List.length_cons] at this
        omega
    | succ e =>
      have hdiv : 10 ^ e ≤ n / 10 := by
        rw [Nat.le_div_iff_mul_le (by norm_num)]
        calc 10 ^ e * 10 = 10 ^ (e + 1) := by ring
        _ ≤ n := hn
      have hne : n / 10 ≠ 0 := by
        intro h0
        rw [h0] at hdiv
        exact absurd hdiv (Nat.not_le.mpr (Nat.pos_pow_of_pos e (by norm_num)))
      simp only [Nat.toDigitsCore, hne, if_false]
      have := ih e (n / 10) (Nat.digitChar (n % 10) :: l) hdiv (by omega)
      simp only [List.length_cons] at this
      omega

theorem repr_length_six (n : Nat) (h1 : 100000 ≤ n) (h2 : n ≤ 999999) :
    (Nat.repr n).length = 6 := by
  have upper : (Nat.repr n).length ≤ 6 :=
    Nat.repr_length n 6 (by norm_num) (by omega)
  have lower : 6 ≤ (Nat.repr n).length := by
    have h := toDigitsCore_length_lower (n + 1) 5 n [] (by norm_num; omega) (by omega)
    simpa [Nat.repr, Nat.toDigits, String.length, List.asString] using h
  omega

theorem digitChar_isDigit (n : Nat) (h : n < 10) : (Nat.digitChar n).isDigit = true := by
  interval_cases n <;> decide

theorem toDigitsCore_all_digits (f : Nat) :
    ∀ (n : Nat) (l : List Char), (∀ c ∈ l, c.isDigit = true) →
      ∀ c ∈ Nat.toDigitsCore 10 f n l, c.isDigit = true := by
  induction f with
  | zero => intro n l hl; exact hl
  | succ f ih =>
    intro n l hl
    simp only [Nat.toDigitsCore]
    have hd : (Nat.digitChar (n % 10)).isDigit = true :=
      digitChar_isDigit _ (Nat.mod_lt _ (by norm_num))
    have hl' : ∀ c ∈ Nat.digitChar (n % 10) :: l, c.isDigit = true := by
      intro c hc
      rcases List.mem_cons.mp hc with h | h
      · exact h ▸ hd
      · exact hl c h
    split
    · exact hl'
    · exact ih (n / 10) _ hl'

theorem repr_all_digits (n : Nat) : ∀ c ∈ (Nat.repr n).toList, c.isDigit = true := by
  intro c hc
  refine toDigitsCore_all_digits (n + 1) n [] (by simp) c ?_
  simpa [Nat.repr, Nat.toDigits, String.toList, List.asString] using hc

/-! ### Frame facts about the verification upserts -/

theorem upsertOtpVerified_otprequests (st : DB) (a : String) (now : Nat) :
    (upsertOtpVerified st a now).otprequests = st.otprequests := by
  unfold upsertOtpVerified; split <;> rfl

theorem upsertOtpVerified_voters (st : DB) (a : String) (now : Nat) :
    (upsertOtpVerified st a now).voters = st.voters := by
  unfold upsertOtpVerified; split <;> rfl

theorem upsertOtpVerified_votes (st : DB) (a : String) (now : Nat) :
    (upsertOtpVerified st a now).votes = st.votes := by
  unfold upsertOtpVerified; split <;> rfl

theorem upsertFaceVerified_voters (st : DB) (a : String) (now : Nat) :
    (upsertFaceVerified st a now).voters = st.voters := by
  unfold upsertFaceVerified; split <;> rfl

theorem upsertFaceVerified_votes (st : DB) (a : String) (now : Nat) :
    (upsertFaceVerified st a now).votes = st.votes := by
  unfold upsertFaceVerified; split <;> rfl

/-- A lookup by the key of a member of a key-`Nodup` list finds that member. -/
theorem find?_key_of_nodup {α K : Type _} [BEq K] [LawfulBEq K]
    (l : List α) (g : α → K) (hnd : (l.map g).Nodup) (x : α) (hx : x ∈ l) :
    l.find? (fun y => g y == g x) = some x := by
  induction l with
  | nil => simp at hx
  | cons h t ih =>
    simp only [List.map_cons, List.nodup_cons] at hnd
    cases hbeq : (g h == g x) with
    | true =>
      have hg : g h = g x := by simpa using hbeq
      simp only [List.find?, hbeq]
      rcases List.mem_cons.mp hx with hxh | hxt
      · rw [hxh]
      · exact absurd (by rw [hg]; exact List.mem_map_of_mem g hxt) hnd.1
    | false =>
      have hxt : x ∈ t := by
        rcases List.mem_cons.mp hx with hxh | hxt
        · subst hxh; simp at hbeq
        · exact hxt
      simp only [List.find?, hbeq]
      exact ih hnd.2 hxt

/-! ## Claim C9: `send_otp` -/

/-- C9: `send_otp(aadhaar)` fails with NotFound when no Voter has that aadhaar;
otherwise the code is (current time modulo 900000) + 100000 rendered as a
6-digit numeric string, the request's expiry is exactly 300 seconds after
issuance, one new OtpRequest record is appended without modifying or
invalidating prior requests, and the response carries the code together with
its first two digits followed by the fixed mask. -/
theorem spec_C9_send_otp (st : DB) (a : String) (now : Nat) :
    match findVoter st a with
    | none => send_otp st a now = (.error .NotFound, st)
    | some v =>
      ∃ resp st', send_otp st a now = (.ok resp, st')
        ∧ resp.otp_demo = toString (now % 900000 + 100000)
        ∧ resp.otp_demo.length = 6
        ∧ (∀ c ∈ resp.otp_demo.toList, c.isDigit = true)
        ∧ resp.expires_at = now + 300
        ∧ resp.masked = resp.otp_demo.take 2 ++ "****"
        ∧ resp.voter_name = v.name
        ∧ st'.voters = st.voters ∧ st'.candidates = st.candidates
        ∧ st'.verifications = st.verifications ∧ st'.votes = st.votes
        ∧ ∃ r : OtpRequest, st'.otprequests = st.otprequests ++ [r]
            ∧ r.aadhaar = a ∧ r.otp = resp.otp_demo ∧ r.expires_at = now + 300
            ∧ r.verified = false ∧ r.created_at = now := by
  have hrepr : toString (now % 900000 + 100000) = Nat.repr (now % 900000 + 100000) := rfl
  have hbound : now % 900000 + 100000 ≤ 999999 := by
    have := Nat.mod_lt now (y := 900000) (by norm_num)
    omega
  have hlen : (toString (now % 900000 + 100000)).length = 6 := by
    rw [hrepr]
    exact repr_length_six _ (Nat.le_add_left _ _) hbound
  have hdigits : ∀ c ∈ (toString (now % 900000 + 100000)).toList, c.isDigit = true := by
    rw [hrepr]
    exact repr_all_digits _
  cases hv : findVoter st a with
  | none => simp only [send_otp, hv]
  | some v =>
    refine ⟨{ otp_demo := toString (now % 900000 + 100000),
              masked := (toString (now % 900000 + 100000)).take 2 ++ "****",
              expires_at := now + 300, voter_name := v.name },
        { st with
          otprequests := st.otprequests ++
            [{ id := st.nextId, aadhaar := a, otp := toString (now % 900000 + 100000),
               expires_at := now + 300, verified := false, created_at := now }],
          nextId := st.nextId + 1 },
        by simp only [send_otp, hv], rfl, hlen, hdigits, rfl, rfl, rfl,
        rfl, rfl, rfl, rfl,
        ⟨{ id := st.nextId, aadhaar := a, otp := toString (now % 900000 + 100000),
           expires_at := now + 300, verified := false, created_at := now },
         rfl, rfl, rfl, rfl, rfl, rfl⟩⟩

/-! ## Claim C3: `verify_otp` -/

/-- C3: `verify_otp(aadhaar, code)` selects the most-recently-created
OtpRequest matching both aadhaar and code (newest `created_at` wins), fails
with InvalidCredential when no OtpRequest matches, fails with Expired for a
matched request whose expiry has passed at call time even though the code
matches, and only on success marks that OtpRequest `verified = true` (on the
error outcomes the store is returned unchanged; requests other than the
selected one survive untouched). -/
theorem spec_C3_verify_otp (st : DB) (a c : String) (now : Nat)
    (hids : (st.otprequests.map OtpRequest.id).Nodup) :
    ((∀ r ∈ st.otprequests, ¬(r.aadhaar = a ∧ r.otp = c)) →
        verify_otp st a c now = (.error .InvalidCredential, st))
    ∧ (∀ r, newestMatch st.otprequests a c = some r →
        r ∈ st.otprequests ∧ r.aadhaar = a ∧ r.otp = c
        ∧ (∀ q ∈ st.otprequests, q.aadhaar = a → q.otp = c →
            q.created_at ≤ r.created_at)
        ∧ (r.expires_at < now → verify_otp st a c now = (.error .Expired, st))
        ∧ (¬ r.expires_at < now →
            ∃ st', verify_otp st a c now = (.ok (), st')
              ∧ st'.otprequests.find? (fun q => q.id == r.id) =
                  some { r with verified := true }
              ∧ (∀ q ∈ st.otprequests, ¬ q.id = r.id → q ∈ st'.otprequests))) := by
  constructor
  · intro hnone
    have hm : newestMatch st.otprequests a c = none :=
      (newestMatch_eq_none_iff _ _ _).mpr hnone
    simp only [verify_otp, hm]
  · intro r hm
    obtain ⟨hmem, hra, hro, hmax⟩ := newestMatch_spec _ _ _ _ hm
    refine ⟨hmem, hra, hro, hmax, ?_, ?_⟩
    · intro hexp
      simp only [verify_otp, hm, if_pos hexp]
    · intro hnexp
      have hp : ∀ x ∈ st.otprequests, ((x.id == r.id) = true ↔ x = r) := by
        intro x hx
        constructor
        · intro hbeq
          exact List.inj_on_of_nodup_map hids hx hmem (by simpa using hbeq)
        · intro hxr; simp [hxr]
      have h2 : ((verify_otp st a c now).2).otprequests =
          updateFirst (fun q => q.id == r.id)
            (fun q => { q with verified := true }) st.otprequests := by
        simp only [verify_otp, hm, if_neg hnexp, upsertOtpVerified_otprequests]
      refine ⟨(verify_otp st a c now).2, ?_, ?_, ?_⟩
      · simp only [verify_otp, hm, if_neg hnexp]
      · rw [h2]
        exact find?_updateFirst_of_unique _ _ _ _ r
          (find?_key_of_nodup st.otprequests OtpRequest.id hids r hmem)
          hp (by simp)
      · intro q hq hqid
        rw [h2]
        exact mem_updateFirst_of_not_target _ _ _ q hq (by simp [hqid])

/-! ## Claim C10: OTP codes are not single-use -/

/-- C10: a successful `verify_otp` sets the matched OtpRequest's `verified`
flag, but the lookup filter never reads that flag, so the same aadhaar/code
pair still matches the same request afterwards, and a repeated `verify_otp`
call succeeds again at any time at which that request's expiry has not
passed. -/
theorem spec_C10_otp_replay (st : DB) (a c : String) (now now' : Nat)
    (st' : DB) (r : OtpRequest)
    (hids : (st.otprequests.map OtpRequest.id).Nodup)
    (hm : newestMatch st.otprequests a c = some r)
    (hok : verify_otp st a c now = (.ok (), st'))
    (hexp : ¬ r.expires_at < now') :
    newestMatch st'.otprequests a c = some { r with verified := true }
    ∧ (verify_otp st' a c now').1 = .ok () := by
  have hnd : st.otprequests.Nodup := List.Nodup.of_map _ hids
  have hmem : r ∈ st.otprequests := (newestMatch_spec _ _ _ _ hm).1
  by_cases hen : r.expires_at < now
  · have hcontra := congrArg Prod.fst hok
    simp only [verify_otp, hm, if_pos hen] at hcontra
    exact absurd hcontra (by simp)
  · have hsnd : (verify_otp st a c now).2 = st' := congrArg Prod.snd hok
    have h2 : st'.otprequests =
        updateFirst (fun q => q.id == r.id)
          (fun q => { q with verified := true }) st.otprequests := by
      rw [← hsnd]
      simp only [verify_otp, hm, if_neg hen, upsertOtpVerified_otprequests]
    have hmap : updateFirst (fun q => q.id == r.id)
        (fun q => { q with verified := true }) st.otprequests
        = st.otprequests.map
            (fun q => if q.id == r.id then { q with verified := true } else q) :=
      updateFirst_eq_map_of_unique _ _ _ hnd
        (fun x hx y hy hpx hpy =>
          List.inj_on_of_nodup_map hids hx hy
            (by rw [eq_of_beq hpx, eq_of_beq hpy]))
    have hmm2 : newestMatch st'.otprequests a c = some { r with verified := true } := by
      rw [h2, hmap,
        newestMatch_map _ (fun q => by by_cases h : q.id == r.id <;> simp [h])
          (fun q => by by_cases h : q.id == r.id <;> simp [h])
          (fun q => by by_cases h : q.id == r.id <;> simp [h]) _ a c, hm]
      simp
    refine ⟨hmm2, ?_⟩
    simp only [verify_otp, hmm2,
      if_neg (show ¬({ r with verified := true } : OtpRequest).expires_at < now' from hexp)]

/-! ## Claim C4: `verify_face` enrollment / match / mismatch -/

/-- C4: with the voter present and the payload decoding to digest `d`:
if the voter's `face_hash` is unset the call stores `d` as the voter's
`face_hash` and returns verified with `enrolled = true`; if `face_hash` equals
`d` the call returns verified with `enrolled = false`; if `face_hash` differs
from `d` the call fails with FaceMismatch and returns the store unchanged
(no Voter and no Verification record is mutated). -/
theorem spec_C4_verify_face (sha : List Nat → String) (st : DB)
    (a img : String) (now : Nat) (v : Voter) (d : String)
    (hids : (st.voters.map Voter.id).Nodup)
    (hv : findVoter st a = some v)
    (hd : sha256_of_base64_image sha img = .ok d) :
    (v.face_hash = none →
        ∃ st', verify_face sha st a img now = (.ok true, st')
          ∧ findVoter st' a = some { v with face_hash := some d })
    ∧ (v.face_hash = some d → (verify_face sha st a img now).1 = .ok false)
    ∧ (∀ h, v.face_hash = some h → ¬ h = d →
        verify_face sha st a img now = (.error .FaceMismatch, st)) := by
  have hv' : st.voters.find? (fun x => x.aadhaar == a) = some v := hv
  have hmem : v ∈ st.voters := List.mem_of_find?_eq_some hv'
  have hqa : (v.aadhaar == a) = true := by simpa using List.find?_some hv'
  have hp : ∀ x ∈ st.voters, ((x.id == v.id) = true ↔ x = v) := fun x hx =>
    ⟨fun hbeq => List.inj_on_of_nodup_map hids hx hmem (by simpa using hbeq),
     fun hxv => by simp [hxv]⟩
  refine ⟨?_, ?_, ?_⟩
  · intro hfh
    have h2 : ((verify_face sha st a img now).2).voters =
        updateFirst (fun x => x.id == v.id)
          (fun x => { x with face_hash := some d }) st.voters := by
      simp only [verify_face, hv, hd, hfh, upsertFaceVerified_voters]
    refine ⟨(verify_face sha st a img now).2, ?_, ?_⟩
    · simp only [verify_face, hv, hd, hfh]
    · unfold findVoter
      rw [h2]
      exact find?_updateFirst_of_unique _ _ _ _ v hv' hp (by simpa using hqa)
  · intro hfh
    simp only [verify_face, hv, hd, hfh]
    simp
  · intro h hfh hne
    simp only [verify_face, hv, hd, hfh]
    simp [hne]

/-! ## Claim C7: the verification upserts are frame-preserving -/

/-- What the `verify_otp`-side upsert does to the verification collection:
exactly one record for the aadhaar afterwards, `otp_verified_at` set to `now`,
`face_verified_at` carried over from the previous record (or `none` when the
record is created fresh). -/
theorem upsertOtpVerified_spec (st : DB) (a : String) (now : Nat)
    (hvids : (st.verifications.map Verification.id).Nodup)
    (hcnt : (st.verifications.filter (fun v => v.aadhaar == a)).length ≤ 1) :
    ((upsertOtpVerified st a now).verifications.filter
        (fun v => v.aadhaar == a)).length = 1
    ∧ ∃ w, findVerification (upsertOtpVerified st a now) a = some w
        ∧ w.aadhaar = a ∧ w.otp_verified_at = some now
        ∧ w.face_verified_at =
            (match findVerification st a with
             | some v0 => v0.face_verified_at
             | none => none) := by
  cases hfv : findVerification st a with
  | some ver =>
    have hfv' : st.verifications.find? (fun x => x.aadhaar == a) = some ver := hfv
    have hmem : ver ∈ st.verifications := List.mem_of_find?_eq_some hfv'
    have hqa : (ver.aadhaar == a) = true := by simpa using List.find?_some hfv'
    have hp : ∀ x ∈ st.verifications, ((x.id == ver.id) = true ↔ x = ver) := fun x hx =>
      ⟨fun hbeq => List.inj_on_of_nodup_map hvids hx hmem (by simpa using hbeq),
       fun hxv => by simp [hxv]⟩
    have hup : (upsertOtpVerified st a now).verifications =
        updateFirst (fun x => x.id == ver.id)
          (fun x => { x with otp_verified_at := some now }) st.verifications := by
      simp only [upsertOtpVerified, hfv]
    constructor
    · rw [hup, ← List.countP_eq_length_filter,
        countP_updateFirst st.verifications (fun x => x.id == ver.id)
          (fun v => v.aadhaar == a)
          (fun x => { x with otp_verified_at := some now }) (fun x => rfl),
        List.countP_eq_length_filter]
      have hone : 0 < (st.verifications.filter (fun v => v.aadhaar == a)).length := by
        have : ver ∈ st.verifications.filter (fun v => v.aadhaar == a) :=
          List.mem_filter.mpr ⟨hmem, hqa⟩
        exact List.length_pos_of_mem this
      omega
    · refine ⟨{ ver with otp_verified_at := some now }, ?_, by simpa using hqa, rfl, rfl⟩
      unfold findVerification
      rw [hup]
      exact find?_updateFirst_of_unique _ _ _ _ ver hfv' hp (by simpa using hqa)
  | none =>
    have hfv' : st.verifications.find? (fun x => x.aadhaar == a) = none := hfv
    have hnone : ∀ x ∈ st.verifications, ¬ (x.aadhaar == a) = true :=
      List.find?_eq_none.mp hfv'
    have hup : (upsertOtpVerified st a now).verifications =
        st.verifications ++
          [{ id := st.nextId, aadhaar := a, otp_verified_at := some now,
             face_verified_at := none }] := by
      simp only [upsertOtpVerified, hfv]
    constructor
    · rw [hup, List.filter_append, List.filter_eq_nil_iff.mpr hnone]
      simp
    · refine ⟨{ id := st.nextId, aadhaar := a, otp_verified_at := some now,
                face_verified_at := none }, ?_, rfl, rfl, rfl⟩
      unfold findVerification
      rw [hup, List.find?_append, hfv']
      simp

/-- Symmetric fact for the `verify_face`-side upsert. -/
theorem upsertFaceVerified_spec (st : DB) (a : String) (now : Nat)
    (hvids : (st.verifications.map Verification.id).Nodup)
    (hcnt : (st.verifications.filter (fun v => v.aadhaar == a)).length ≤ 1) :
    ((upsertFaceVerified st a now).verifications.filter
        (fun v => v.aadhaar == a)).length = 1
    ∧ ∃ w, findVerification (upsertFaceVerified st a now) a = some w
        ∧ w.aadhaar = a ∧ w.face_verified_at = some now
        ∧ w.otp_verified_at =
            (match findVerification st a with
             | some v0 => v0.otp_verified_at
             | none => none) := by
  cases hfv : findVerification st a with
  | some ver =>
    have hfv' : st.verifications.find? (fun x => x.aadhaar == a) = some ver := hfv
    have hmem : ver ∈ st.verifications := List.mem_of_find?_eq_some hfv'
    have hqa : (ver.aadhaar == a) = true := by simpa using List.find?_some hfv'
    have hp : ∀ x ∈ st.verifications, ((x.id == ver.id) = true ↔ x = ver) := fun x hx =>
      ⟨fun hbeq => List.inj_on_of_nodup_map hvids hx hmem (by simpa using hbeq),
       fun hxv => by simp [hxv]⟩
    have hup : (upsertFaceVerified st a now).verifications =
        updateFirst (fun x => x.id == ver.id)
          (fun x => { x with face_verified_at := some now }) st.verifications := by
      simp only [upsertFaceVerified, hfv]
    constructor
    · rw [hup, ← List.countP_eq_length_filter,
        countP_updateFirst st.verifications (fun x => x.id == ver.id)
          (fun v => v.aadhaar == a)
          (fun x => { x with face_verified_at := some now }) (fun x => rfl),
        List.countP_eq_length_filter]
      have hone : 0 < (st.verifications.filter (fun v => v.aadhaar == a)).length := by
        have : ver ∈ st.verifications.filter (fun v => v.aadhaar == a) :=
          List.mem_filter.mpr ⟨hmem, hqa⟩
        exact List.length_pos_of_mem this
      omega
    · refine ⟨{ ver with face_verified_at := some now }, ?_, by simpa using hqa, rfl, rfl⟩
      unfold findVerification
      rw [hup]
      exact find?_updateFirst_of_unique _ _ _ _ ver hfv' hp (by simpa using hqa)
  | none =>
    have hfv' : st.verifications.find? (fun x => x.aadhaar == a) = none := hfv
    have hnone : ∀ x ∈ st.verifications, ¬ (x.aadhaar == a) = true :=
      List.find?_eq_none.mp hfv'
    have hup : (upsertFaceVerified st a now).verifications =
        st.verifications ++
          [{ id := st.nextId, aadhaar := a, otp_verified_at := none,
             face_verified_at := some now }] := by
      simp only [upsertFaceVerified, hfv]
    constructor
    · rw [hup, List.filter_append, List.filter_eq_nil_iff.mpr hnone]
      simp
    · refine ⟨{ id := st.nextId, aadhaar := a, otp_verified_at := none,
                face_verified_at := some now }, ?_, rfl, rfl, rfl⟩
      unfold findVerification
      rw [hup, List.find?_append, hfv']
      simp

/-- The upsert reads only the `verifications` and `nextId` fields of the state. -/
theorem upsertOtpVerified_congr_verif (s t : DB) (a : String) (now : Nat)
    (hv : s.verifications = t.verifications) (hn : s.nextId = t.nextId) :
    (upsertOtpVerified s a now).verifications =
      (upsertOtpVerified t a now).verifications := by
  have hfind : findVerification s a = findVerification t a := by
    unfold findVerification; rw [hv]
  cases hfv : findVerification t a with
  | some ver => simp only [upsertOtpVerified, hfind, hfv, hv, hn]
  | none => simp only [upsertOtpVerified, hfind, hfv, hv, hn]

theorem upsertFaceVerified_congr_verif (s t : DB) (a : String) (now : Nat)
    (hv : s.verifications = t.verifications) (hn : s.nextId = t.nextId) :
    (upsertFaceVerified s a now).verifications =
      (upsertFaceVerified t a now).verifications := by
  have hfind : findVerification s a = findVerification t a := by
    unfold findVerification; rw [hv]
  cases hfv : findVerification t a with
  | some ver => simp only [upsertFaceVerified, hfind, hfv, hv, hn]
  | none => simp only [upsertFaceVerified, hfind, hfv, hv, hn]

theorem upsertOtpVerified_nodup (st : DB) (a : String) (now : Nat)
    (hvids : (st.verifications.map Verification.id).Nodup)
    (hfresh : ∀ w ∈ st.verifications, ¬ w.id = st.nextId) :
    ((upsertOtpVerified st a now).verifications.map Verification.id).Nodup := by
  cases hfv : findVerification st a with
  | some ver =>
    simp only [upsertOtpVerified, hfv]
    rw [map_updateFirst st.verifications (fun v => v.id == ver.id)
      (fun v => { v with otp_verified_at := some now }) Verification.id (fun x => rfl)]
    exact hvids
  | none =>
    simp only [upsertOtpVerified, hfv, List.map_append, List.map_cons, List.map_nil]
    rw [List.nodup_append]
    refine ⟨hvids, List.nodup_singleton _, ?_⟩
    intro x hx hx1
    simp only [List.mem_singleton] at hx1
    obtain ⟨w, hw, hwid⟩ := List.mem_map.mp hx
    exact hfresh w hw (by rw [hwid, hx1])

theorem upsertFaceVerified_nodup (st : DB) (a : String) (now : Nat)
    (hvids : (st.verifications.map Verification.id).Nodup)
    (hfresh : ∀ w ∈ st.verifications, ¬ w.id = st.nextId) :
    ((upsertFaceVerified st a now).verifications.map Verification.id).Nodup := by
  cases hfv : findVerification st a with
  | some ver =>
    simp only [upsertFaceVerified, hfv]
    rw [map_updateFirst st.verifications (fun v => v.id == ver.id)
      (fun v => { v with face_verified_at := some now }) Verification.id (fun x => rfl)]
    exact hvids
  | none =>
    simp only [upsertFaceVerified, hfv, List.map_append, List.map_cons, List.map_nil]
    rw [List.nodup_append]
    refine ⟨hvids, List.nodup_singleton _, ?_⟩
    intro x hx hx1
    simp only [List.mem_singleton] at hx1
    obtain ⟨w, hw, hwid⟩ := List.mem_map.mp hx
    exact hfresh w hw (by rw [hwid, hx1])

/-- A successful `verify_otp` changes the verification collection exactly as
the upsert does (the handler's only other write is to `otprequests`). -/
theorem verify_otp_ok_shape (st : DB) (a c : String) (now : Nat) (st' : DB)
    (h : verify_otp st a c now = (.ok (), st')) :
    st'.verifications = (upsertOtpVerified st a now).verifications := by
  cases hm : newestMatch st.otprequests a c with
  | none =>
    have := congrArg Prod.fst h
    simp only [verify_otp, hm] at this
    exact absurd this (by simp)
  | some r =>
    by_cases hen : r.expires_at < now
    · have := congrArg Prod.fst h
      simp only [verify_otp, hm, if_pos hen] at this
      exact absurd this (by simp)
    · have hsnd := congrArg Prod.snd h
      simp only [verify_otp, hm, if_neg hen] at hsnd
      rw [← hsnd]
      exact upsertOtpVerified_congr_verif _ _ _ _ rfl rfl

/-- A successful `verify_face` changes the verification collection exactly as
the upsert does (the handler's only other write is to `voters`). -/
theorem verify_face_ok_shape (sha : List Nat → String) (st : DB)
    (a img : String) (now : Nat) (e : Bool) (st' : DB)
    (h : verify_face sha st a img now = (.ok e, st')) :
    st'.verifications = (upsertFaceVerified st a now).verifications := by
  cases hvo : findVoter st a with
  | none =>
    have := congrArg Prod.fst h
    simp only [verify_face, hvo] at this
    exact absurd this (by simp)
  | some voter =>
    cases hsha : sha256_of_base64_image sha img with
    | error err =>
      have := congrArg Prod.fst h
      simp only [verify_face, hvo, hsha] at this
      exact absurd this (by simp)
    | ok d =>
      cases hfh : voter.face_hash with
      | none =>
        have hsnd := congrArg Prod.snd h
        simp only [verify_face, hvo, hsha, hfh] at hsnd
        rw [← hsnd]
        exact upsertFaceVerified_congr_verif _ _ _ _ rfl rfl
      | some stored =>
        by_cases hsd : (stored == d) = true
        · have hsnd := congrArg Prod.snd h
          simp only [verify_face, hvo, hsha, hfh, hsd, if_true] at hsnd
          rw [← hsnd]
        · have := congrArg Prod.fst h
          simp only [verify_face, hvo, hsha, hfh, if_neg hsd] at this
          exact absurd this (by simp)

/-- C7: a successful `verify_otp` upserts the single Verification record for
the aadhaar (creating it when absent, updating in place otherwise), setting
`otp_verified_at` to the call time while leaving an already-set
`face_verified_at` unchanged; symmetrically, a successful `verify_face` sets
`face_verified_at` without clearing an existing `otp_verified_at`; hence
either order of the two verifications leaves both timestamps set. -/
theorem spec_C7_upsert_frame (st : DB) (a : String)
    (hvids : (st.verifications.map Verification.id).Nodup)
    (hcnt : (st.verifications.filter (fun v => v.aadhaar == a)).length ≤ 1)
    (hfresh : ∀ w ∈ st.verifications, ¬ w.id = st.nextId) :
    (∀ c now st', verify_otp st a c now = (.ok (), st') →
        (st'.verifications.filter (fun v => v.aadhaar == a)).length = 1
        ∧ ∃ w, findVerification st' a = some w ∧ w.aadhaar = a
            ∧ w.otp_verified_at = some now
            ∧ w.face_verified_at =
                (match findVerification st a with
                 | some v0 => v0.face_verified_at
                 | none => none))
    ∧ (∀ sha img e now st', verify_face sha st a img now = (.ok e, st') →
        (st'.verifications.filter (fun v => v.aadhaar == a)).length = 1
        ∧ ∃ w, findVerification st' a = some w ∧ w.aadhaar = a
            ∧ w.face_verified_at = some now
            ∧ w.otp_verified_at =
                (match findVerification st a with
                 | some v0 => v0.otp_verified_at
                 | none => none))
    ∧ (∀ c now1 st1 sha img e now2 st2,
        verify_otp st a c now1 = (.ok (), st1) →
        verify_face sha st1 a img now2 = (.ok e, st2) →
        ∃ w, findVerification st2 a = some w
          ∧ w.otp_verified_at = some now1 ∧ w.face_verified_at = some now2)
    ∧ (∀ sha img e now1 st1 c now2 st2,
        verify_face sha st a img now1 = (.ok e, st1) →
        verify_otp st1 a c now2 = (.ok (), st2) →
        ∃ w, findVerification st2 a = some w
          ∧ w.face_verified_at = some now1 ∧ w.otp_verified_at = some now2) := by
  refine ⟨?_, ?_, ?_, ?_⟩
  · intro c now st' h
    have hsh := verify_otp_ok_shape st a c now st' h
    obtain ⟨hlen, w, hw, hwa, hwo, hwf⟩ := upsertOtpVerified_spec st a now hvids hcnt
    refine ⟨?_, w, ?_, hwa, hwo, hwf⟩
    · rw [hsh]; exact hlen
    · unfold findVerification at hw ⊢; rw [hsh]; exact hw
  · intro sha img e now st' h
    have hsh := verify_face_ok_shape sha st a img now e st' h
    obtain ⟨hlen, w, hw, hwa, hwf, hwo⟩ := upsertFaceVerified_spec st a now hvids hcnt
    refine ⟨?_, w, ?_, hwa, hwf, hwo⟩
    · rw [hsh]; exact hlen
    · unfold findVerification at hw ⊢; rw [hsh]; exact hw
  · intro c now1 st1 sha img e now2 st2 h1 h2
    have hsh1 := verify_otp_ok_shape st a c now1 st1 h1
    obtain ⟨hlen1, w1, hw1, hw1a, hw1o, hw1f⟩ := upsertOtpVerified_spec st a now1 hvids hcnt
    have hfind1 : findVerification st1 a = some w1 := by
      unfold findVerification at hw1 ⊢; rw [hsh1]; exact hw1
    have hnd1 : (st1.verifications.map Verification.id).Nodup := by
      rw [hsh1]; exact upsertOtpVerified_nodup st a now1 hvids hfresh
    have hcnt1 : (st1.verifications.filter (fun v => v.aadhaar == a)).length ≤ 1 := by
      rw [hsh1]; exact Nat.le_of_eq hlen1
    have hsh2 := verify_face_ok_shape sha st1 a img now2 e st2 h2
    obtain ⟨hlen2, w2, hw2, hw2a, hw2f, hw2o⟩ := upsertFaceVerified_spec st1 a now2 hnd1 hcnt1
    refine ⟨w2, ?_, ?_, hw2f⟩
    · unfold findVerification at hw2 ⊢; rw [hsh2]; exact hw2
    · rw [hw2o, hfind1]; exact hw1o
  · intro sha img e now1 st1 c now2 st2 h1 h2
    have hsh1 := verify_face_ok_shape sha st a img now1 e st1 h1
    obtain ⟨hlen1, w1, hw1, hw1a, hw1f, hw1o⟩ := upsertFaceVerified_spec st a now1 hvids hcnt
    have hfind1 : findVerification st1 a = some w1 := by
      unfold findVerification at hw1 ⊢; rw [hsh1]; exact hw1
    have hnd1 : (st1.verifications.map Verification.id).Nodup := by
      rw [hsh1]; exact upsertFaceVerified_nodup st a now1 hvids hfresh
    have hcnt1 : (st1.verifications.filter (fun v => v.aadhaar == a)).length ≤ 1 := by
      rw [hsh1]; exact Nat.le_of_eq hlen1
    have hsh2 := verify_otp_ok_shape st1 a c now2 st2 h2
    obtain ⟨hlen2, w2, hw2, hw2a, hw2o, hw2f⟩ := upsertOtpVerified_spec st1 a now2 hnd1 hcnt1
    refine ⟨w2, ?_, ?_, hw2o⟩
    · unfold findVerification at hw2 ⊢; rw [hsh2]; exact hw2
    · rw [hw2f, hfind1]; exact hw1f

/-! ## Claim C8: rejection of non-base64 payloads -/

/-- Following the spec's words for C8 ("valid encoded binary"): a strictly
well-formed base64 payload — length a multiple of 4, every character from the
base64 alphabet except for at most two trailing padding characters. -/
def validEncodedBinary (s : String) : Bool :=
  let cs := s.toList
  let pad := (cs.reverse.takeWhile (fun c => c == '=')).length
  decide (cs.length % 4 = 0) && decide (pad ≤ 2)
    && (cs.take (cs.length - pad)).all (fun c => (b64Val c).isSome)

/-- The decoder state machine never looks at characters outside the base64
alphabet and padding: they are discarded. -/
theorem a2bAux_filter (cs : List Char) : ∀ (q lc p : Nat) (out : List Nat),
    a2bAux cs q lc p out =
      a2bAux (cs.filter (fun c => (b64Val c).isSome || c == '=')) q lc p out := by
  induction cs with
  | nil => intro q lc p out; rfl
  | cons c rest ih =>
    intro q lc p out
    by_cases hc : c = '='
    · subst hc
      have hkeep : ((b64Val '=').isSome || '=' == '=') = true := by decide
      have hfe : List.filter (fun c => (b64Val c).isSome || c == '=') ('=' :: rest)
          = '=' :: List.filter (fun c => (b64Val c).isSome || c == '=') rest := by
        simp [List.filter_cons, hkeep]
      rw [hfe]
      by_cases h2 : 2 ≤ q
      · by_cases h4 : 4 ≤ q + (p + 1)
        · simp [a2bAux, h2, h4]
        · simp only [a2bAux, if_pos rfl, if_pos h2, if_neg h4]
          exact ih q lc (p + 1) out
      · simp only [a2bAux, if_pos rfl, if_neg h2]
        exact ih q lc p out
    · cases hv : b64Val c with
      | none =>
        have hdrop : ((b64Val c).isSome || c == '=') = false := by
          simp [hv, hc]
        have hfe : List.filter (fun x => (b64Val x).isSome || x == '=') (c :: rest)
            = List.filter (fun x => (b64Val x).isSome || x == '=') rest := by
          simp [List.filter_cons, hdrop]
        rw [hfe]
        simp only [a2bAux, if_neg hc, hv]
        exact ih q lc p out
      | some v =>
        have hkeep : ((b64Val c).isSome || c == '=') = true := by simp [hv]
        have hfe : List.filter (fun x => (b64Val x).isSome || x == '=') (c :: rest)
            = c :: List.filter (fun x => (b64Val x).isSome || x == '=') rest := by
          simp [List.filter_cons, hkeep]
        rw [hfe]
        match q with
        | 0 =>
          simp only [a2bAux, if_neg hc, hv]
          exact ih 1 v 0 out
        | 1 =>
          simp only [a2bAux, if_neg hc, hv]
          exact ih 2 (v % 16) 0 ((lc * 4 + v / 16) :: out)
        | 2 =>
          simp only [a2bAux, if_neg hc, hv]
          exact ih 3 (v % 4) 0 ((lc * 16 + v / 4) :: out)
        | (n + 3) =>
          simp only [a2bAux, if_neg hc, hv]
          exact ih 0 0 0 ((lc * 64 + v) :: out)

/-- A non-ASCII payload: four data characters followed by U+00E9. -/
def imgNonAscii : String := "QQQQé"

/-- C8 (amended): on a `str` payload, `base64.b64decode` first ASCII-encodes,
so a payload containing any character above U+007F (such as "QQQQé") fails
with InvalidInput; an all-ASCII payload is then decoded with every character
outside the base64 alphabet and padding discarded first, so such a payload is
not necessarily rejected — InvalidInput occurs exactly when the payload (after
data-URI stripping) is non-ASCII or its remaining data characters are
malformed, and InvalidInput is the helper's only failure. -/
theorem spec_C8_amended_decode (sha : List Nat → String) (s : String) (cs : List Char) :
    b64decode cs =
      (if cs.all (fun c => c.toNat ≤ 127)
       then b64decode (cs.filter (fun c => (b64Val c).isSome || c == '='))
       else none)
    ∧ sha256_of_base64_image sha imgNonAscii = .error .InvalidInput
    ∧ (sha256_of_base64_image sha s = .error .InvalidInput ↔
        b64decode (stripDataUri s.toList) = none)
    ∧ (∀ bytes, b64decode (stripDataUri s.toList) = some bytes →
        sha256_of_base64_image sha s = .ok (sha bytes)) := by
  refine ⟨?_, rfl, ?_, ?_⟩
  · cases hall : cs.all (fun c => c.toNat ≤ 127) with
    | true =>
      have hfall : (cs.filter (fun c => (b64Val c).isSome || c == '=')).all
          (fun c => c.toNat ≤ 127) = true := by
        rw [List.all_eq_true] at hall ⊢
        intro c hc
        exact hall c (List.mem_of_mem_filter hc)
      simp only [b64decode, hall, hfall, if_true]
      exact a2bAux_filter cs 0 0 0 []
    | false =>
      simp only [b64decode, hall, Bool.false_eq_true, if_false]
  · cases hdec : b64decode (stripDataUri s.toList) with
    | none =>
      simp only [String.toList] at hdec
      simp [sha256_of_base64_image, hdec]
    | some bytes =>
      simp only [String.toList] at hdec
      simp [sha256_of_base64_image, hdec]
  · intro bytes hdec
    simp only [String.toList] at hdec
    simp [sha256_of_base64_image, hdec]

/-- Demo digest function used to instantiate the abstract SHA-256 parameter in
concrete evaluations. -/
def shaDemo : List Nat → String := fun bs => toString bs

/-- The aadhaar of the first seeded voter (`main.py:77`). -/
def aRavi : String := "111122223333"

/-- The payload consisting of the single character '!'. -/
def excl : String := "!"

/-- A state with the seeded voter, not yet enrolled. -/
def stC8 : DB :=
  { voters := [{ id := 1, aadhaar := aRavi, name := "Ravi Kumar",
                 phone := "+910000000001", face_hash := none, has_voted := false }],
    candidates := [], otprequests := [], verifications := [], votes := [],
    nextId := 10 }

/-- C8 (counterexample): the payload "!" is not valid encoded binary, yet the
digest helper does not fail with InvalidInput — the invalid character is
discarded, the empty byte string is hashed, and `verify_face` succeeds
(enrolling the digest of the empty byte string). -/
theorem spec_C8_counterexample :
    validEncodedBinary excl = false
    ∧ sha256_of_base64_image shaDemo excl = .ok (shaDemo [])
    ∧ (verify_face shaDemo stC8 aRavi excl 7).1 = .ok true := by
  refine ⟨by decide, rfl, rfl⟩

/-! ## Claims C5 and C6: `results` -/

theorem insertDesc_perm (x : ResultEntry) (l : List ResultEntry) :
    List.Perm (insertDesc x l) (x :: l) := by
  induction l with
  | nil => exact List.Perm.refl _
  | cons y ys ih =>
    by_cases h : x.votes < y.votes
    · simp only [insertDesc, if_pos h]
      exact (ih.cons y).trans (List.Perm.swap x y ys)
    · simp only [insertDesc, if_neg h]
      exact List.Perm.refl _

theorem sortVotesDesc_perm (l : List ResultEntry) : List.Perm (sortVotesDesc l) l := by
  induction l with
  | nil => exact List.Perm.refl _
  | cons x xs ih =>
    exact (insertDesc_perm x (sortVotesDesc xs)).trans (ih.cons x)

theorem chain'_insertDesc (x : ResultEntry) (l : List ResultEntry)
    (h : List.Chain' (fun a b => b.votes ≤ a.votes) l) :
    List.Chain' (fun a b => b.votes ≤ a.votes) (insertDesc x l) := by
  induction l with
  | nil => simp [insertDesc]
  | cons y ys ih =>
    by_cases hxy : x.votes < y.votes
    · simp only [insertDesc, if_pos hxy]
      refine List.chain'_cons'.mpr ⟨?_, ih h.tail⟩
      intro b hb
      cases ys with
      | nil =>
        simp only [insertDesc, Option.mem_def, List.head?_cons, Option.some.injEq] at hb
        subst hb
        exact Nat.le_of_lt hxy
      | cons z zs =>
        have hyz : z.votes ≤ y.votes := (List.chain'_cons.mp h).1
        by_cases hxz : x.votes < z.votes
        · simp only [insertDesc, if_pos hxz, Option.mem_def, List.head?_cons,
            Option.some.injEq] at hb
          subst hb
          exact hyz
        · simp only [insertDesc, if_neg hxz, Option.mem_def, List.head?_cons,
            Option.some.injEq] at hb
          subst hb
          exact Nat.le_of_lt hxy
    · simp only [insertDesc, if_neg hxy]
      exact List.chain'_cons.mpr ⟨Nat.le_of_not_lt hxy, h⟩

theorem chain'_sortVotesDesc (l : List ResultEntry) :
    List.Chain' (fun a b => b.votes ≤ a.votes) (sortVotesDesc l) := by
  induction l with
  | nil => simp [sortVotesDesc]
  | cons x xs ih => exact chain'_insertDesc x _ ih

/-- Counting by a key over a key-`Nodup` list: one hit when the key occurs,
none otherwise. -/
theorem countP_keyfn_nodup {α K : Type _} [BEq K] [LawfulBEq K]
    (l : List α) (g : α → K) (k : K) (h : (l.map g).Nodup) :
    l.countP (fun x => g x == k) =
      if l.any (fun x => g x == k) then 1 else 0 := by
  induction l with
  | nil => simp
  | cons x xs ih =>
    simp only [List.map_cons, List.nodup_cons] at h
    cases hx : (g x == k) with
    | true =>
      have hk : g x = k := by simpa using hx
      have hz : xs.countP (fun y => g y == k) = 0 := by
        rw [List.countP_eq_zero]
        intro y hy hyk
        exact h.1 (by rw [hk, ← eq_of_beq hyk]; exact List.mem_map_of_mem g hy)
      simp [List.countP_cons, List.any_cons, hx, hz]
    | false =>
      have hany : ((x :: xs).any fun y => g y == k) = (xs.any fun y => g y == k) := by
        simp [hx]
      have hcnt : (x :: xs).countP (fun y => g y == k) = xs.countP (fun y => g y == k) := by
        simp [List.countP_cons, hx]
      rw [hany, hcnt, ih h.2]

/-- The single aggregation step of `aggregateVotes`. -/
def aggStep (acc : List (String × Nat)) (v : Vote) : List (String × Nat) :=
  if acc.any (fun p => p.1 == v.candidate_id) then
    acc.map (fun p => if p.1 == v.candidate_id then (p.1, p.2 + 1) else p)
  else acc ++ [(v.candidate_id, 1)]

theorem aggregateVotes_eq_foldl (votes : List Vote) :
    aggregateVotes votes = votes.foldl aggStep [] := rfl

theorem sum_map_bump (acc : List (String × Nat)) (k : String) :
    ((acc.map (fun p => if p.1 == k then (p.1, p.2 + 1) else p)).map Prod.snd).sum
      = (acc.map Prod.snd).sum + acc.countP (fun p => p.1 == k) := by
  induction acc with
  | nil => simp
  | cons p ps ih =>
    simp only [List.map_map] at ih ⊢
    simp only [List.map_cons, List.sum_cons, List.countP_cons]
    by_cases hp : p.1 = k
    · simp only [Function.comp, hp, beq_self_eq_true, if_true, if_pos]
      omega
    · have hpb : (p.1 == k) = false := by simp [hp]
      simp only [Function.comp, hpb, Bool.false_eq_true, if_false]
      omega

theorem aggStep_invariant (acc : List (String × Nat)) (v : Vote)
    (h : (acc.map Prod.fst).Nodup) :
    ((aggStep acc v).map Prod.fst).Nodup
    ∧ ((aggStep acc v).map Prod.snd).sum = (acc.map Prod.snd).sum + 1 := by
  unfold aggStep
  cases hany : acc.any (fun p => p.1 == v.candidate_id) with
  | true =>
    simp only [if_true]
    constructor
    · have : (acc.map (fun p => if p.1 == v.candidate_id then (p.1, p.2 + 1) else p)).map
          Prod.fst = acc.map Prod.fst := by
        rw [List.map_map]
        refine List.map_congr_left ?_
        intro p _
        by_cases hp : p.1 = v.candidate_id <;> simp [hp]
      rw [this]
      exact h
    · rw [sum_map_bump, countP_keyfn_nodup acc Prod.fst v.candidate_id h, hany]
      simp
  | false =>
    simp only [Bool.false_eq_true, if_false]
    constructor
    · simp only [List.map_append, List.map_cons, List.map_nil]
      rw [List.nodup_append]
      refine ⟨h, List.nodup_singleton _, ?_⟩
      intro k hk hk1
      simp only [List.mem_singleton] at hk1
      subst hk1
      obtain ⟨p, hp, hpk⟩ := List.mem_map.mp hk
      have : acc.any (fun p => p.1 == v.candidate_id) = true :=
        List.any_eq_true.mpr ⟨p, hp, by simp [hpk]⟩
      rw [hany] at this
      exact absurd this (by simp)
    · simp

theorem foldl_aggStep_invariant (votes : List Vote) :
    ∀ acc : List (String × Nat), (acc.map Prod.fst).Nodup →
      ((votes.foldl aggStep acc).map Prod.fst).Nodup
      ∧ ((votes.foldl aggStep acc).map Prod.snd).sum
          = (acc.map Prod.snd).sum + votes.length := by
  induction votes with
  | nil => intro acc h; exact ⟨h, by simp⟩
  | cons v vs ih =>
    intro acc h
    obtain ⟨h1, h2⟩ := aggStep_invariant acc v h
    obtain ⟨h3, h4⟩ := ih (aggStep acc v) h1
    exact ⟨h3, by rw [List.foldl_cons] at *; rw [h4, h2]; simp [Nat.add_assoc, Nat.add_comm 1]⟩

theorem aggregateVotes_nodup (votes : List Vote) :
    ((aggregateVotes votes).map Prod.fst).Nodup :=
  (foldl_aggStep_invariant votes [] (by simp)).1

theorem aggregateVotes_sum (votes : List Vote) :
    ((aggregateVotes votes).map Prod.snd).sum = votes.length := by
  have := (foldl_aggStep_invariant votes [] (by simp)).2
  simpa using this

/-- Keys in the aggregation come from the vote log. -/
theorem foldl_aggStep_keys (votes : List Vote) :
    ∀ (acc : List (String × Nat)) (k : String),
      k ∈ (votes.foldl aggStep acc).map Prod.fst →
      k ∈ acc.map Prod.fst ∨ ∃ v ∈ votes, v.candidate_id = k := by
  induction votes with
  | nil => intro acc k h; exact Or.inl h
  | cons v vs ih =>
    intro acc k h
    rw [List.foldl_cons] at h
    rcases ih (aggStep acc v) k h with hacc | hvs
    · unfold aggStep at hacc
      cases hany : acc.any (fun p => p.1 == v.candidate_id) with
      | true =>
        rw [hany] at hacc
        have hacc2 : k ∈ List.map Prod.fst
            (acc.map (fun p => if p.1 == v.candidate_id then (p.1, p.2 + 1) else p)) := by
          simpa using hacc
        rw [List.map_map] at hacc2
        obtain ⟨p, hp, hpk⟩ := List.mem_map.mp hacc2
        left
        have hfst : p.1 = k := by
          by_cases hc : p.1 = v.candidate_id <;> simpa [Function.comp, hc] using hpk
        exact hfst ▸ List.mem_map_of_mem Prod.fst hp
      | false =>
        rw [hany] at hacc
        simp only [Bool.false_eq_true, if_false, List.map_append, List.map_cons,
          List.map_nil, List.mem_append, List.mem_singleton] at hacc
        rcases hacc with h1 | h1
        · exact Or.inl h1
        · exact Or.inr ⟨v, List.mem_cons_self _ _, h1.symm⟩
    · obtain ⟨w, hw, hwk⟩ := hvs
      exact Or.inr ⟨w, List.mem_cons_of_mem v hw, hwk⟩

theorem aggregateVotes_keys (votes : List Vote) (k : String)
    (h : k ∈ (aggregateVotes votes).map Prod.fst) :
    ∃ v ∈ votes, v.candidate_id = k := by
  rcases foldl_aggStep_keys votes [] k h with h1 | h1
  · simp at h1
  · exact h1

/-- A state with candidates A, B, C and votes [A, A, B]. -/
def stABC : DB :=
  { voters := [],
    candidates := [⟨"a", "A", none⟩, ⟨"b", "B", none⟩, ⟨"c", "C", none⟩],
    otprequests := [], verifications := [],
    votes := [⟨"x", "a", 1⟩, ⟨"y", "a", 2⟩, ⟨"z", "b", 3⟩], nextId := 0 }

/-- C6: `results` contains exactly one entry per candidate — with the right
name and party, zero-vote candidates included with count 0 — maps every entry
whose candidate_id matches no candidate to the placeholder name "Unknown" with
no party, and the vote counts over all entries sum to the total number of Vote
records. -/
theorem spec_C6_results_complete (st : DB)
    (hc : (st.candidates.map Candidate.id).Nodup) :
    (∀ c ∈ st.candidates,
        (results st).countP (fun e => e.candidate_id == c.id) = 1
        ∧ ∃ e ∈ results st, e.candidate_id = c.id ∧ e.name = c.name ∧ e.party = c.party)
    ∧ (∀ e ∈ results st, (∀ c ∈ st.candidates, ¬ c.id = e.candidate_id) →
        e.name = "Unknown" ∧ e.party = none)
    ∧ ((results st).map ResultEntry.votes).sum = st.votes.length
    ∧ (∀ c ∈ st.candidates, (∀ v ∈ st.votes, ¬ v.candidate_id = c.id) →
        ∃ e ∈ results st, e.candidate_id = c.id ∧ e.votes = 0) := by
  have hperm : List.Perm (results st) (knownEntries st ++ zeroEntries st) :=
    sortVotesDesc_perm _
  have haggnd := aggregateVotes_nodup st.votes
  have hmkid : ∀ p : String × Nat, (joinEntry st p).candidate_id = p.1 := by
    intro p
    unfold joinEntry
    cases st.candidates.find? (fun c => c.id == p.1) <;> rfl
  have hmkvotes : ∀ p : String × Nat, (joinEntry st p).votes = p.2 := by
    intro p
    unfold joinEntry
    cases st.candidates.find? (fun c => c.id == p.1) <;> rfl
  refine ⟨?_, ?_, ?_, ?_⟩
  · intro c hcmem
    have hcd : st.candidates.find? (fun y => y.id == c.id) = some c :=
      find?_key_of_nodup st.candidates Candidate.id hc c hcmem
    constructor
    · rw [hperm.countP_eq, List.countP_append]
      have hknown : (knownEntries st).countP (fun e => e.candidate_id == c.id) =
          (aggregateVotes st.votes).countP (fun p => p.1 == c.id) := by
        unfold knownEntries
        rw [List.countP_map]
        exact List.countP_congr (fun p _ => by
          simp only [Function.comp]
          rw [hmkid p])
      have hzero : (zeroEntries st).countP (fun e => e.candidate_id == c.id) =
          (st.candidates.filter
              (fun x => !((aggregateVotes st.votes).map Prod.fst).contains x.id)).countP
            (fun x => x.id == c.id) := by
        unfold zeroEntries
        rw [List.countP_map]
        exact List.countP_congr (fun x _ => Iff.rfl)
      rw [hknown, hzero,
        countP_keyfn_nodup (aggregateVotes st.votes) Prod.fst c.id haggnd]
      by_cases hin : c.id ∈ (aggregateVotes st.votes).map Prod.fst
      · have hany : (aggregateVotes st.votes).any (fun p => p.1 == c.id) = true := by
          obtain ⟨p, hp, hpk⟩ := List.mem_map.mp hin
          exact List.any_eq_true.mpr ⟨p, hp, by simp [hpk]⟩
        have hzcnt : (st.candidates.filter
            (fun x => !((aggregateVotes st.votes).map Prod.fst).contains x.id)).countP
              (fun x => x.id == c.id) = 0 := by
          rw [List.countP_eq_zero]
          intro x hx hxk
          have hid : x.id = c.id := by simpa using hxk
          have hxf := (List.mem_filter.mp hx).2
          rw [hid] at hxf
          simp [hin] at hxf
        rw [hany, hzcnt]
        simp
      · have hany : (aggregateVotes st.votes).any (fun p => p.1 == c.id) = false := by
          rw [List.any_eq_false]
          intro p hp hpk
          exact hin (by
            rw [← show p.1 = c.id from by simpa using hpk]
            exact List.mem_map_of_mem Prod.fst hp)
        have hcont : ((aggregateVotes st.votes).map Prod.fst).contains c.id = false := by
          simpa using hin
        have hzcnt : (st.candidates.filter
            (fun x => !((aggregateVotes st.votes).map Prod.fst).contains x.id)).countP
              (fun x => x.id == c.id) = st.candidates.countP (fun x => x.id == c.id) := by
          rw [List.countP_filter]
          exact List.countP_congr (fun x hx => by
            by_cases hxk : x.id = c.id
            · simp only [hxk, hcont]
              simp
            · simp [hxk])
        have hanyc : st.candidates.any (fun x => x.id == c.id) = true :=
          List.any_eq_true.mpr ⟨c, hcmem, by simp⟩
        rw [hany, hzcnt,
          countP_keyfn_nodup st.candidates Candidate.id c.id hc, hanyc]
        simp
    · by_cases hin : c.id ∈ (aggregateVotes st.votes).map Prod.fst
      · obtain ⟨p, hp, hpk⟩ := List.mem_map.mp hin
        have hfind : st.candidates.find? (fun cd => cd.id == p.1) = some c := by
          rw [hpk]; exact hcd
        have hje : joinEntry st p =
            { candidate_id := p.1, name := c.name, party := c.party, votes := p.2 } := by
          unfold joinEntry
          rw [hfind]
        refine ⟨joinEntry st p, ?_, by rw [hje]; exact hpk, by rw [hje], by rw [hje]⟩
        exact (hperm.mem_iff).mpr
          (List.mem_append_left _ (List.mem_map_of_mem (joinEntry st) hp))
      · have hcont : ((aggregateVotes st.votes).map Prod.fst).contains c.id = false := by
          simpa using hin
        refine ⟨zeroEntry c, ?_, rfl, rfl, rfl⟩
        refine (hperm.mem_iff).mpr (List.mem_append_right _ ?_)
        exact List.mem_map_of_mem zeroEntry
          (List.mem_filter.mpr ⟨hcmem, by rw [hcont]; rfl⟩)
  · intro e he hno
    have he2 := (hperm.mem_iff).mp he
    rcases List.mem_append.mp he2 with hk | hz
    · unfold knownEntries at hk
      obtain ⟨p, hp, hpe⟩ := List.mem_map.mp hk
      unfold joinEntry at hpe
      cases hfind : st.candidates.find? (fun cd => cd.id == p.1) with
      | some cd =>
        rw [hfind] at hpe
        have hcdmem := List.mem_of_find?_eq_some hfind
        have hcdid : cd.id = p.1 := by simpa using List.find?_some hfind
        have hep : e.candidate_id = p.1 := by rw [← hpe]
        exact absurd (by rw [hcdid, hep] : cd.id = e.candidate_id) (hno cd hcdmem)
      | none =>
        rw [hfind] at hpe
        rw [← hpe]
        exact ⟨rfl, rfl⟩
    · unfold zeroEntries at hz
      obtain ⟨cd, hcd2, hpe⟩ := List.mem_map.mp hz
      have hcdmem := (List.mem_filter.mp hcd2).1
      have : cd.id = e.candidate_id := by rw [← hpe]; rfl
      exact absurd this (hno cd hcdmem)
  · have hsum : ((results st).map ResultEntry.votes).sum =
        ((knownEntries st ++ zeroEntries st).map ResultEntry.votes).sum :=
      (hperm.map ResultEntry.votes).sum_eq
    rw [hsum, List.map_append, List.sum_append]
    have hknown : ((knownEntries st).map ResultEntry.votes).sum = st.votes.length := by
      unfold knownEntries
      rw [List.map_map]
      have hcong : (aggregateVotes st.votes).map (ResultEntry.votes ∘ joinEntry st)
          = (aggregateVotes st.votes).map Prod.snd :=
        List.map_congr_left (fun p _ => by
          simp only [Function.comp]
          rw [hmkvotes p])
      rw [hcong, aggregateVotes_sum]
    have hzero : ((zeroEntries st).map ResultEntry.votes).sum = 0 := by
      apply List.sum_eq_zero
      intro x hx
      unfold zeroEntries at hx
      rw [List.map_map] at hx
      obtain ⟨cd, _, hcdx⟩ := List.mem_map.mp hx
      rw [← hcdx]
      rfl
    rw [hknown, hzero]
    simp
  · intro c hcmem hnov
    have hnotin : c.id ∉ (aggregateVotes st.votes).map Prod.fst := by
      intro hin
      obtain ⟨v, hv, hvk⟩ := aggregateVotes_keys st.votes c.id hin
      exact hnov v hv hvk
    have hcont : ((aggregateVotes st.votes).map Prod.fst).contains c.id = false := by
      simpa using hnotin
    refine ⟨zeroEntry c, ?_, rfl, rfl⟩
    refine (hperm.mem_iff).mpr (List.mem_append_right _ ?_)
    exact List.mem_map_of_mem zeroEntry
      (List.mem_filter.mpr ⟨hcmem, by rw [hcont]; rfl⟩)

/-! ## Claim C2: `cast_vote` -/

/-- A 24-hex candidate id (the string form of a Mongo ObjectId). -/
def cidHex : String := "0123456789abcdef01234567"

/-- A state with the seeded voter fully verified and one candidate: every
gate of `cast_vote` passes. -/
def stC2 : DB :=
  { voters := [{ id := 1, aadhaar := aRavi, name := "Ravi Kumar",
                 phone := "+910000000001", face_hash := some "h",
                 has_voted := false }],
    candidates := [{ id := cidHex, name := "Alice Johnson",
                     party := some "Unity Party" }],
    otprequests := [],
    verifications := [{ id := 2, aadhaar := aRavi, otp_verified_at := some 50,
                        face_verified_at := some 60 }],
    votes := [], nextId := 10 }

/-- C2 (code-bug evaluation): on a fully verified voter with an existing
candidate, the handler as it executes (`cast_vote_strict`: the stray query at
`main.py:232` raises) fails with an internal error after the verification gate
and records nothing — indeed it can never succeed on any input — while the
handler as intended by the code's own comment at `main.py:233` (`cast_vote`)
performs the candidate check, inserts the vote and flips `has_voted`. -/
theorem spec_C2_cast_vote_bug :
    cast_vote_strict stC2 aRavi cidHex 100 = (.error .InternalError, stC2)
    ∧ (cast_vote stC2 aRavi cidHex 100).1 = .ok ()
    ∧ votesFor (cast_vote stC2 aRavi cidHex 100).2 aRavi = 1
    ∧ voterHasVoted (cast_vote stC2 aRavi cidHex 100).2 aRavi = true
    ∧ ∀ (st : DB) (a cid : String) (now : Nat),
        (cast_vote_strict st a cid now).1 ≠ .ok () := by
  refine ⟨rfl, rfl, by decide, by decide, ?_⟩
  intro st a cid now
  unfold cast_vote_strict
  cases hfv : findVoter st a with
  | none => simp
  | some voter =>
    by_cases h1 : voter.has_voted <;>
      by_cases h2 : verificationComplete st a <;>
        simp [h1, h2]

/-! ## Claim C1: `has_voted` is one-way -/

/-- `has_voted` of the first voter matching an aadhaar in a voter list. -/
def hasVotedIn (l : List Voter) (a : String) : Bool :=
  match l.find? (fun v => v.aadhaar == a) with
  | some v => v.has_voted
  | none => false

theorem voterHasVoted_eq (st : DB) (a : String) :
    voterHasVoted st a = hasVotedIn st.voters a := rfl

/-- A patch that changes neither aadhaars nor `has_voted` flags leaves the
`has_voted` projection unchanged. -/
theorem hasVotedIn_updateFirst_keep (l : List Voter) (p : Voter → Bool)
    (f : Voter → Voter) (a : String)
    (hfa : ∀ x, (f x).aadhaar = x.aadhaar)
    (hfh : ∀ x, (f x).has_voted = x.has_voted) :
    hasVotedIn (updateFirst p f l) a = hasVotedIn l a := by
  induction l with
  | nil => rfl
  | cons x xs ih =>
    simp only [updateFirst]
    cases hp : p x with
    | true =>
      have hq2 : ((f x).aadhaar == a) = (x.aadhaar == a) := by rw [hfa]
      simp only [if_true]
      unfold hasVotedIn
      cases hq : (x.aadhaar == a) with
      | true =>
        rw [hq] at hq2
        simp only [List.find?, hq, hq2]
        exact hfh x
      | false =>
        rw [hq] at hq2
        simp only [List.find?, hq, hq2]
    | false =>
      simp only [Bool.false_eq_true, if_false]
      unfold hasVotedIn
      cases hq : (x.aadhaar == a) with
      | true => simp only [List.find?, hq]
      | false =>
        simp only [List.find?, hq]
        exact ih

theorem send_otp_frame (st : DB) (a0 : String) (now : Nat) :
    ((send_otp st a0 now).2).voters = st.voters
    ∧ ((send_otp st a0 now).2).votes = st.votes := by
  cases hfv : findVoter st a0 with
  | none => constructor <;> simp only [send_otp, hfv]
  | some v => constructor <;> simp only [send_otp, hfv]

theorem verify_otp_frame (st : DB) (a0 c : String) (now : Nat) :
    ((verify_otp st a0 c now).2).voters = st.voters
    ∧ ((verify_otp st a0 c now).2).votes = st.votes := by
  cases hm : newestMatch st.otprequests a0 c with
  | none => constructor <;> simp only [verify_otp, hm]
  | some r =>
    by_cases hen : r.expires_at < now
    · constructor <;> simp only [verify_otp, hm, if_pos hen]
    · constructor
      · simp only [verify_otp, hm, if_neg hen]
        exact (upsertOtpVerified_voters _ _ _).trans rfl
      · simp only [verify_otp, hm, if_neg hen]
        exact (upsertOtpVerified_votes _ _ _).trans rfl

theorem verify_face_frame (sha : List Nat → String) (st : DB)
    (a0 img : String) (now : Nat) :
    ((verify_face sha st a0 img now).2).votes = st.votes
    ∧ (((verify_face sha st a0 img now).2).voters = st.voters
       ∨ ∃ v d, findVoter st a0 = some v
           ∧ ((verify_face sha st a0 img now).2).voters =
               updateFirst (fun x => x.id == v.id)
                 (fun x => { x with face_hash := some d }) st.voters) := by
  cases hfv : findVoter st a0 with
  | none =>
    constructor
    · simp only [verify_face, hfv]
    · exact Or.inl (by simp only [verify_face, hfv])
  | some voter =>
    cases hsha : sha256_of_base64_image sha img with
    | error e =>
      constructor
      · simp only [verify_face, hfv, hsha]
      · exact Or.inl (by simp only [verify_face, hfv, hsha])
    | ok d =>
      cases hfh : voter.face_hash with
      | none =>
        constructor
        · simp only [verify_face, hfv, hsha, hfh]
          exact (upsertFaceVerified_votes _ _ _).trans rfl
        · refine Or.inr ⟨voter, d, rfl, ?_⟩
          simp only [verify_face, hfv, hsha, hfh]
          exact (upsertFaceVerified_voters _ _ _).trans rfl
      | some stored =>
        by_cases hsd : (stored == d) = true
        · constructor
          · simp only [verify_face, hfv, hsha, hfh, hsd, if_true]
            exact (upsertFaceVerified_votes _ _ _).trans rfl
          · refine Or.inl ?_
            simp only [verify_face, hfv, hsha, hfh, hsd, if_true]
            exact (upsertFaceVerified_voters _ _ _).trans rfl
        · constructor
          · simp only [verify_face, hfv, hsha, hfh, if_neg hsd]
          · exact Or.inl (by simp only [verify_face, hfv, hsha, hfh, if_neg hsd])

theorem cast_vote_strict_snd (st : DB) (a0 cid : String) (now : Nat) :
    (cast_vote_strict st a0 cid now).2 = st := by
  cases hfv : findVoter st a0 with
  | none => simp only [cast_vote_strict, hfv]
  | some voter =>
    by_cases h1 : voter.has_voted <;>
      by_cases h2 : verificationComplete st a0 <;>
        simp [cast_vote_strict, hfv, h1, h2]

/-- Full case analysis of `cast_vote`: either it succeeds, having found a
voter with `has_voted = false`, appended one vote and flipped that voter's
flag, or it fails and returns the store unchanged. -/
theorem cast_vote_shape (st : DB) (a0 cid : String) (now : Nat) :
    ((cast_vote st a0 cid now).1 = .ok ()
      ∧ ∃ v, findVoter st a0 = some v ∧ v.has_voted = false
          ∧ ((cast_vote st a0 cid now).2).voters =
              updateFirst (fun x => x.id == v.id)
                (fun x => { x with has_voted := true }) st.voters
          ∧ ((cast_vote st a0 cid now).2).votes =
              st.votes ++ [{ aadhaar := a0, candidate_id := cid, created_at := now }])
    ∨ ((cast_vote st a0 cid now).2 = st ∧ ∃ e, (cast_vote st a0 cid now).1 = .error e) := by
  cases hfv : findVoter st a0 with
  | none =>
    refine Or.inr ⟨?_, .NotFound, ?_⟩ <;> simp only [cast_vote, hfv]
  | some voter =>
    by_cases h1 : voter.has_voted
    · refine Or.inr ⟨?_, .AlreadyVoted, ?_⟩ <;> simp [cast_vote, hfv, h1]
    · by_cases h2 : verificationComplete st a0
      · cases hoid : objectIdOfString cid with
        | none =>
          refine Or.inr ⟨?_, .CandidateNotFound, ?_⟩ <;>
            simp [cast_vote, hfv, h1, h2, hoid]
        | some oid =>
          cases hcand : st.candidates.find? (fun c => c.id == oid) with
          | none =>
            refine Or.inr ⟨?_, .CandidateNotFound, ?_⟩ <;>
              simp [cast_vote, hfv, h1, h2, hoid, hcand]
          | some c =>
            refine Or.inl ⟨?_, voter, rfl, by simpa using h1, ?_, ?_⟩ <;>
              simp [cast_vote, create_document_vote, hfv, h1, h2, hoid, hcand]
      · refine Or.inr ⟨?_, .IncompleteVerification, ?_⟩ <;>
          simp [cast_vote, hfv, h1, h2]

/-- C1: no operation ever sets `has_voted` back to false; a `cast_vote` for an
aadhaar whose voter has `has_voted = true` fails with AlreadyVoted (in both
the intended and the as-executed reading of the handler) leaving the store
unchanged; once `has_voted` holds, no operation adds a vote record for that
aadhaar; a successful `cast_vote` sets `has_voted`; and `has_voted` can only
flip from false to true through a successful `cast_vote` for that aadhaar. -/
theorem spec_C1_has_voted_one_way (sha : List Nat → String) (st : DB) (a : String)
    (hids : (st.voters.map Voter.id).Nodup) :
    (∀ op, voterHasVoted st a = true → voterHasVoted (step sha st op) a = true)
    ∧ (∀ cid now, voterHasVoted st a = true →
        cast_vote st a cid now = (.error .AlreadyVoted, st)
        ∧ cast_vote_strict st a cid now = (.error .AlreadyVoted, st))
    ∧ (∀ op, voterHasVoted st a = true → votesFor (step sha st op) a = votesFor st a)
    ∧ (∀ cid now st', cast_vote st a cid now = (.ok (), st') →
        voterHasVoted st' a = true)
    ∧ (∀ op, voterHasVoted st a = false → voterHasVoted (step sha st op) a = true →
        ∃ cid now, op = Op.castVote a cid now ∧ (cast_vote st a cid now).1 = .ok ()) := by
  have hv_elim : voterHasVoted st a = true →
      ∃ w, findVoter st a = some w ∧ w.has_voted = true := by
    intro hv
    unfold voterHasVoted at hv
    cases hfw : findVoter st a with
    | none => rw [hfw] at hv; exact absurd hv (by simp)
    | some w => rw [hfw] at hv; exact ⟨w, rfl, hv⟩
  have hfind_keep : ∀ (v : Voter) (a0 : String), findVoter st a0 = some v → ¬ a0 = a →
      (updateFirst (fun x => x.id == v.id)
          (fun x => { x with has_voted := true }) st.voters).find?
        (fun x => x.aadhaar == a) = st.voters.find? (fun x => x.aadhaar == a) := by
    intro v a0 hfv haa
    have hfv' : st.voters.find? (fun x => x.aadhaar == a0) = some v := hfv
    have hmem : v ∈ st.voters := List.mem_of_find?_eq_some hfv'
    have hva : v.aadhaar = a0 := by simpa using List.find?_some hfv'
    apply find?_updateFirst_of_none
    intro x hx hpx
    have hxv : x = v := List.inj_on_of_nodup_map hids hx hmem (by simpa using hpx)
    subst hxv
    exact ⟨by simp [hva, haa], by simp [hva, haa]⟩
  have hconj2 : ∀ cid now, voterHasVoted st a = true →
      cast_vote st a cid now = (.error .AlreadyVoted, st)
      ∧ cast_vote_strict st a cid now = (.error .AlreadyVoted, st) := by
    intro cid now hv
    obtain ⟨w, hfw, hw⟩ := hv_elim hv
    constructor
    · simp [cast_vote, hfw, hw]
    · simp [cast_vote_strict, hfw, hw]
  refine ⟨?_, hconj2, ?_, ?_, ?_⟩
  · intro op hv
    rw [voterHasVoted_eq] at hv ⊢
    cases op with
    | sendOtp a0 now =>
      show hasVotedIn ((send_otp st a0 now).2).voters a = true
      rw [(send_otp_frame st a0 now).1]
      exact hv
    | verifyOtp a0 c now =>
      show hasVotedIn ((verify_otp st a0 c now).2).voters a = true
      rw [(verify_otp_frame st a0 c now).1]
      exact hv
    | verifyFace a0 img now =>
      show hasVotedIn ((verify_face sha st a0 img now).2).voters a = true
      rcases (verify_face_frame sha st a0 img now).2 with heq | ⟨v, d, hfv, heq⟩
      · rw [heq]; exact hv
      · rw [heq, hasVotedIn_updateFirst_keep st.voters (fun x => x.id == v.id)
          (fun x => { x with face_hash := some d }) a (fun x => rfl) (fun x => rfl)]
        exact hv
    | castVoteStrict a0 cid now =>
      show hasVotedIn ((cast_vote_strict st a0 cid now).2).voters a = true
      rw [cast_vote_strict_snd]
      exact hv
    | castVote a0 cid now =>
      show hasVotedIn ((cast_vote st a0 cid now).2).voters a = true
      rcases cast_vote_shape st a0 cid now with ⟨hok, v, hfv, hnv, hvoters, hvotes⟩ | ⟨heq, _⟩
      · by_cases haa : a0 = a
        · subst haa
          obtain ⟨w, hfw, hw⟩ := hv_elim hv
          rw [hfv] at hfw
          have hvw : v = w := Option.some.inj hfw
          rw [hvw, hw] at hnv
          exact absurd hnv (by simp)
        · unfold hasVotedIn
          rw [hvoters, hfind_keep v a0 hfv haa]
          exact hv
      · rw [heq]; exact hv
  · intro op hv
    cases op with
    | sendOtp a0 now =>
      show votesFor (send_otp st a0 now).2 a = votesFor st a
      unfold votesFor
      rw [(send_otp_frame st a0 now).2]
    | verifyOtp a0 c now =>
      show votesFor (verify_otp st a0 c now).2 a = votesFor st a
      unfold votesFor
      rw [(verify_otp_frame st a0 c now).2]
    | verifyFace a0 img now =>
      show votesFor (verify_face sha st a0 img now).2 a = votesFor st a
      unfold votesFor
      rw [(verify_face_frame sha st a0 img now).1]
    | castVoteStrict a0 cid now =>
      show votesFor (cast_vote_strict st a0 cid now).2 a = votesFor st a
      rw [cast_vote_strict_snd]
    | castVote a0 cid now =>
      show votesFor (cast_vote st a0 cid now).2 a = votesFor st a
      rcases cast_vote_shape st a0 cid now with ⟨hok, v, hfv, hnv, hvoters, hvotes⟩ | ⟨heq, _⟩
      · by_cases haa : a0 = a
        · subst haa
          obtain ⟨w, hfw, hw⟩ := hv_elim hv
          rw [hfv] at hfw
          have hvw : v = w := Option.some.inj hfw
          rw [hvw, hw] at hnv
          exact absurd hnv (by simp)
        · unfold votesFor
          rw [hvotes, List.filter_append]
          simp [haa]
      · rw [heq]
  · intro cid now st' hok
    rcases cast_vote_shape st a cid now with ⟨hok1, v, hfv, hnv, hvoters, hvotes⟩ | ⟨heq, e, herr⟩
    · have hst' : (cast_vote st a cid now).2 = st' := congrArg Prod.snd hok
      rw [voterHasVoted_eq, ← hst']
      have hfv' : st.voters.find? (fun x => x.aadhaar == a) = some v := hfv
      have hmem : v ∈ st.voters := List.mem_of_find?_eq_some hfv'
      have hp : ∀ x ∈ st.voters, ((x.id == v.id) = true ↔ x = v) := fun x hx =>
        ⟨fun hbeq => List.inj_on_of_nodup_map hids hx hmem (by simpa using hbeq),
         fun hxv => by simp [hxv]⟩
      have hqa : (v.aadhaar == a) = true := by simpa using List.find?_some hfv'
      unfold hasVotedIn
      rw [hvoters, find?_updateFirst_of_unique _ _ _ _ v hfv' hp (by simpa using hqa)]
    · have hfst := congrArg Prod.fst hok
      rw [herr] at hfst
      exact absurd hfst (by simp)
  · intro op hfalse htrue
    rw [voterHasVoted_eq] at hfalse htrue
    cases op with
    | sendOtp a0 now =>
      simp only [step] at htrue
      rw [(send_otp_frame st a0 now).1] at htrue
      rw [htrue] at hfalse
      exact absurd hfalse (by simp)
    | verifyOtp a0 c now =>
      simp only [step] at htrue
      rw [(verify_otp_frame st a0 c now).1] at htrue
      rw [htrue] at hfalse
      exact absurd hfalse (by simp)
    | verifyFace a0 img now =>
      simp only [step] at htrue
      rcases (verify_face_frame sha st a0 img now).2 with heq | ⟨v, d, hfv, heq⟩
      · rw [heq] at htrue
        rw [htrue] at hfalse
        exact absurd hfalse (by simp)
      · rw [heq, hasVotedIn_updateFirst_keep st.voters (fun x => x.id == v.id)
          (fun x => { x with face_hash := some d }) a (fun x => rfl) (fun x => rfl)] at htrue
        rw [htrue] at hfalse
        exact absurd hfalse (by simp)
    | castVoteStrict a0 cid now =>
      simp only [step] at htrue
      rw [cast_vote_strict_snd] at htrue
      rw [htrue] at hfalse
      exact absurd hfalse (by simp)
    | castVote a0 cid now =>
      simp only [step] at htrue
      rcases cast_vote_shape st a0 cid now with ⟨hok, v, hfv, hnv, hvoters, hvotes⟩ | ⟨heq, _⟩
      · by_cases haa : a0 = a
        · subst haa
          exact ⟨cid, now, rfl, hok⟩
        · unfold hasVotedIn at htrue
          rw [hvoters, hfind_keep v a0 hfv haa] at htrue
          unfold hasVotedIn at hfalse
          rw [htrue] at hfalse
          exact absurd hfalse (by simp)
      · rw [heq] at htrue
        rw [htrue] at hfalse
        exact absurd hfalse (by simp)

/-! ## Concrete witnesses -/

/-- The OTP code of the witness request. -/
def otpC : String := "101000"

/-- A state with one OTP request for the seeded voter. -/
def rC3 : OtpRequest :=
  { id := 5, aadhaar := aRavi, otp := otpC, expires_at := 1300,
    verified := false, created_at := 1000 }

def stC3 : DB :=
  { voters := [], candidates := [], otprequests := [rC3],
    verifications := [], votes := [], nextId := 10 }

/-- The unenrolled seeded voter of `stC8`. -/
def vC8 : Voter :=
  { id := 1, aadhaar := aRavi, name := "Ravi Kumar", phone := "+910000000001",
    face_hash := none, has_voted := false }

/-- The payload decoding to the single byte 65. -/
def imgQ : String := "QQ=="

/-- A state with an OTP-verified, not yet face-verified voter. -/
def stC7 : DB :=
  { voters := [vC8], candidates := [], otprequests := [],
    verifications := [{ id := 2, aadhaar := aRavi, otp_verified_at := some 50,
                        face_verified_at := none }],
    votes := [], nextId := 10 }

theorem spec_C1_has_voted_one_way_witness :
    voterHasVoted (cast_vote stC2 aRavi cidHex 100).2 aRavi = true :=
  (spec_C1_has_voted_one_way shaDemo stC2 aRavi (by decide)).2.2.2.1 cidHex 100
    (cast_vote stC2 aRavi cidHex 100).2 rfl

theorem spec_C3_verify_otp_witness :
    verify_otp stC3 aRavi otpC 2000 = (.error .Expired, stC3) :=
  ((spec_C3_verify_otp stC3 aRavi otpC 2000 (by decide)).2 rC3 rfl).2.2.2.2.1 (by decide)

theorem spec_C4_verify_face_witness :
    ∃ st', verify_face shaDemo stC8 aRavi imgQ 7 = (.ok true, st')
      ∧ findVoter st' aRavi = some { vC8 with face_hash := some (shaDemo [65]) } :=
  (spec_C4_verify_face shaDemo stC8 aRavi imgQ 7 vC8 (shaDemo [65])
    (by decide) rfl rfl).1 rfl

theorem spec_C6_results_complete_witness :
    ((results stABC).map ResultEntry.votes).sum = stABC.votes.length :=
  (spec_C6_results_complete stABC (by decide)).2.2.1

theorem spec_C7_upsert_frame_witness :
    ∃ w, findVerification (verify_face shaDemo stC7 aRavi imgQ 60).2 aRavi = some w
      ∧ w.aadhaar = aRavi ∧ w.face_verified_at = some 60
      ∧ w.otp_verified_at = some 50 := by
  obtain ⟨hcount, w, hw, hwa, hwf, hwo⟩ :=
    (spec_C7_upsert_frame stC7 aRavi (by decide) (by decide) (by decide)).2.1
      shaDemo imgQ true 60 (verify_face shaDemo stC7 aRavi imgQ 60).2 rfl
  exact ⟨w, hw, hwa, hwf, hwo⟩

theorem spec_C10_otp_replay_witness :
    (verify_otp (verify_otp stC3 aRavi otpC 1000).2 aRavi otpC 1200).1 = .ok () :=
  (spec_C10_otp_replay stC3 aRavi otpC 1000 1200
    (verify_otp stC3 aRavi otpC 1000).2 rC3 (by decide) rfl rfl (by decide)).2

end VotingSim
